import Mathlib

/-!
A verification development for the patch-based JSON versioning engine in
`src/patchUtils.ts` of opencode-config-switch.

The engine works on JSON *texts*: a structure-preserving parse records, for
every node of the document, the exact character span of its source text.
Pointers (`/a/0/b`) are resolved to spans, patches `{path, value}` are
extracted by comparing leaf spans of two documents, and applied by splicing
value texts back into the baseline at resolved spans.

Texts are modelled as `List Char` (JavaScript string indices are UTF-16 code
units; for the documents considered here the two coincide on every claim;
astral-plane corner cases are noted where relevant).  The external
`jsonc-parser` library (`parseTree`, `findNodeAtLocation`) is not part of the
repository; it is modelled below from the spec's §6 external-interface
contract (a strict, offset-preserving JSON parse) and from that library's
documented `JSONPath` semantics (string segments address object properties,
numeric segments address array elements).
-/

namespace PatchUtils

/-! ## JavaScript `Number(string)` conversion

`getRangeForPointer` maps every pointer segment `s` through
`Number(s)`/`Number.isNaN` before handing the path to the node finder, so the
conversion must be modelled.  The model follows the ECMAScript
string-to-number grammar: whitespace trimming, optional sign, decimal
literals with fraction/exponent, `Infinity`, and unsigned hex/octal/binary
literals.  Values are kept exactly (mantissa and decimal scale) instead of as
IEEE doubles; the difference is only observable for segments whose decimal
value needs more than double precision, which no claim involves. -/

/-- Characters trimmed by JavaScript's string-to-number conversion. -/
def isJsWs (c : Char) : Bool :=
  c.toNat = 0x20 || c.toNat = 0x09 || c.toNat = 0x0A || c.toNat = 0x0D ||
  c.toNat = 0x0B || c.toNat = 0x0C || c.toNat = 0xA0 || c.toNat = 0xFEFF ||
  c.toNat = 0x1680 || (0x2000 ≤ c.toNat && c.toNat ≤ 0x200A) ||
  c.toNat = 0x2028 || c.toNat = 0x2029 || c.toNat = 0x202F ||
  c.toNat = 0x205F || c.toNat = 0x3000

def isDigit (c : Char) : Bool := '0' ≤ c && c ≤ '9'

def isHexDigit (c : Char) : Bool :=
  isDigit c || ('a' ≤ c && c ≤ 'f') || ('A' ≤ c && c ≤ 'F')

def isOctDigit (c : Char) : Bool := '0' ≤ c && c ≤ '7'

def isBinDigit (c : Char) : Bool := c = '0' || c = '1'

def hexDigitVal (c : Char) : Nat :=
  if isDigit c then c.toNat - '0'.toNat
  else if 'a' ≤ c && c ≤ 'f' then c.toNat - 'a'.toNat + 10
  else c.toNat - 'A'.toNat + 10

/-- Value of a digit string read in base `b` (most significant digit first). -/
def baseVal (b : Nat) (ds : List Char) : Nat :=
  ds.foldl (fun a c => b * a + hexDigitVal c) 0

/-- Value of a decimal digit string. -/
def digitsVal (ds : List Char) : Nat := baseVal 10 ds

/-- A JavaScript number that is not NaN: either finite with exact value
`±mantissa·10^scale`, or an infinity. -/
inductive JsNum where
  | finite (neg : Bool) (mantissa : Nat) (scale : Int)
  | inf (neg : Bool)
deriving DecidableEq, Repr

/-- Whitespace trimming done by `Number(string)`. -/
def trimJs (s : List Char) : List Char :=
  ((s.dropWhile isJsWs).reverse.dropWhile isJsWs).reverse

/-- The exponent part of a decimal string numeric literal (input starts just
after the `e`/`E` marker, and must be consumed entirely). -/
def parseExpTail (cs : List Char) : Option Int :=
  match cs with
  | [] => none
  | c :: r =>
    if c = '+' then if !r.isEmpty && r.all isDigit then some (digitsVal r) else none
    else if c = '-' then if !r.isEmpty && r.all isDigit then some (-(digitsVal r : Int)) else none
    else if (c :: r).all isDigit then some (digitsVal (c :: r)) else none

/-- An unsigned decimal string numeric literal (ECMAScript
`StrUnsignedDecimalLiteral` without `Infinity`), consumed entirely.
Returns the exact value as mantissa and decimal scale. -/
def parseDecBody (cs : List Char) : Option (Nat × Int) :=
  let ds1 := cs.takeWhile isDigit
  let r1 := cs.drop ds1.length
  match r1 with
  | [] => if ds1.isEmpty then none else some (digitsVal ds1, 0)
  | c :: r2 =>
    if c = '.' then
      let ds2 := r2.takeWhile isDigit
      let r3 := r2.drop ds2.length
      if ds1.isEmpty && ds2.isEmpty then none
      else
        match r3 with
        | [] => some (digitsVal (ds1 ++ ds2), -(ds2.length : Int))
        | e :: r4 =>
          if e = 'e' || e = 'E' then
            (parseExpTail r4).map (fun ex => (digitsVal (ds1 ++ ds2), ex - ds2.length))
          else none
    else if (c = 'e' || c = 'E') && !ds1.isEmpty then
      (parseExpTail r2).map (fun ex => (digitsVal ds1, ex))
    else none

/-- Unsigned non-decimal (hex/octal/binary) string numeric literal. -/
def parseNonDec (cs : List Char) : Option Nat :=
  match cs with
  | c0 :: x :: r =>
    if c0 = '0' then
      if (x = 'x' || x = 'X') && !r.isEmpty && r.all isHexDigit then some (baseVal 16 r)
      else if (x = 'o' || x = 'O') && !r.isEmpty && r.all isOctDigit then some (baseVal 8 r)
      else if (x = 'b' || x = 'B') && !r.isEmpty && r.all isBinDigit then some (baseVal 2 r)
      else none
    else none
  | _ => none

/-- Signed decimal tail: `Infinity` or a decimal literal. -/
def parseSignedTail (neg : Bool) (r : List Char) : Option JsNum :=
  if r = "Infinity".data then some (.inf neg)
  else (parseDecBody r).map (fun p => .finite neg p.1 p.2)

/-- `Number()` on an already-trimmed string. -/
def jsNumberTrimmed : List Char → Option JsNum
  | [] => some (.finite false 0 0)
  | c :: r =>
    if c = '+' then parseSignedTail false r
    else if c = '-' then parseSignedTail true r
    else
      match parseNonDec (c :: r) with
      | some n => some (.finite false n 0)
      | none => parseSignedTail false (c :: r)

/-- Model of JavaScript `Number(s)` restricted to NaN-ness and exact value:
`none` means `Number(s)` is NaN. -/
def jsNumberOf (s : List Char) : Option JsNum :=
  jsNumberTrimmed (trimJs s)

/-! ## JSONPath segments

`jsonc-parser`'s `findNodeAtLocation` takes a path of segments that are
either strings (object property names) or numbers (array indices).
`getRangeForPointer` produces a number whenever `Number(segment)` is not NaN.
A numeric segment that is not a valid array index (negative, fractional or
infinite) can never address a node; it is collapsed to `bad` here, which the
finder rejects (the spec: a non-(non-negative-integer) index is NotFound). -/

inductive JsSeg where
  | str (s : List Char)
  | idx (n : Nat)
  | bad
deriving DecidableEq, Repr

/-- How a segment's `Number()` value is used: NaN keeps the string, a
non-negative exact integer is an array index, anything else can never
address a node. -/
def segOfNum : Option JsNum → List Char → JsSeg
  | none, s => .str s
  | some (.inf _), _ => .bad
  | some (.finite neg m sc), _ =>
    if m = 0 then .idx 0
    else if neg then .bad
    else if 0 ≤ sc then .idx (m * 10 ^ sc.toNat)
    else if 10 ^ (-sc).toNat ∣ m then .idx (m / 10 ^ (-sc).toNat)
    else .bad

/-- The segment mapping performed by `getRangeForPointer`:
`const num = Number(s); return Number.isNaN(num) ? s : num`. -/
def segToJs (s : List Char) : JsSeg :=
  segOfNum (jsNumberOf s) s

/-- JavaScript `pointer.split('/')` (single-character separator). -/
def splitSlashAux : List Char → List Char → List (List Char)
  | [], acc => [acc.reverse]
  | c :: r, acc =>
    if c = '/' then acc.reverse :: splitSlashAux r []
    else splitSlashAux r (c :: acc)

def splitSlash (s : List Char) : List (List Char) := splitSlashAux s []

/-! ## Documents

A parsed JSON document: every node carries the exact span (offset and
length, in characters of the source text) of its own source text, exactly as
`jsonc-parser` node trees do.  Object properties keep only the parsed key
string and the value node; the property nodes' own spans are never consulted
by the code under verification and are dropped. -/

inductive JNode where
  | scalar (off len : Nat)
  | obj (off len : Nat) (props : List (List Char × JNode))
  | arr (off len : Nat) (elems : List JNode)
deriving Repr

def offOf : JNode → Nat
  | .scalar o _ => o
  | .obj o _ _ => o
  | .arr o _ _ => o

def lenOf : JNode → Nat
  | .scalar _ l => l
  | .obj _ l _ => l
  | .arr _ l _ => l

/-! ## The parser

Modelled from the spec: the repository's `parseTree` comes from the external
`jsonc-parser` package (spec §6: "a structure-preserving JSON parse retaining
byte offsets/lengths per node and node kind, tolerant of standard JSON").
The model is a strict RFC 8259 parser producing `none` exactly on texts that
are not standard JSON; offsets and lengths match the source text spans. -/

/-- JSON insignificant whitespace. -/
def isJsonWs (c : Char) : Bool := c = ' ' || c = '\t' || c = '\n' || c = '\r'

/-- Skip whitespace; returns the rest and the number of characters skipped. -/
def skipWs (cs : List Char) : List Char × Nat :=
  (cs.dropWhile isJsonWs, (cs.takeWhile isJsonWs).length)

/-- Single-character string escapes. -/
def escChar : Char → Option Char
  | '"' => some '"'
  | '\\' => some '\\'
  | '/' => some '/'
  | 'b' => some '\x08'
  | 'f' => some '\x0c'
  | 'n' => some '\n'
  | 'r' => some '\r'
  | 't' => some '\t'
  | _ => none

/- Scan of a JSON string body, starting after the opening quote.  Returns
the parsed (unescape-processed) string value, the rest of the input after
the closing quote, and the number of characters consumed (closing quote
included).  `\uXXXX` escapes become the character with that code (lone
surrogates, which Lean characters cannot represent, degrade to `'\x00'`;
no claim involves them). -/
mutual

/-- Scan of a JSON string body (see the comment above). -/
def parseStrAux : Nat → List Char → Option (List Char × List Char × Nat)
  | 0, _ => none
  | _ + 1, [] => none
  | f + 1, c :: r =>
    if c = '"' then some ([], r, 1)
    else if c = '\\' then parseEscSeq f r
    else if c.toNat < 0x20 then none
    else (parseStrAux f r).map (fun v => (c :: v.1, v.2.1, v.2.2 + 1))
termination_by structural f _ => f

/-- An escape sequence; the input starts after the backslash, and the
returned count includes the backslash. -/
def parseEscSeq : Nat → List Char → Option (List Char × List Char × Nat)
  | 0, _ => none
  | _ + 1, [] => none
  | f + 1, e :: r2 =>
    if e = 'u' then parseHex4 f r2
    else
      (escChar e).bind (fun ch =>
        (parseStrAux f r2).map (fun v => (ch :: v.1, v.2.1, v.2.2 + 2)))
termination_by structural f _ => f

/-- The four hex digits of a `\uXXXX` escape; the input starts after the
`u`, and the returned count includes the backslash and the `u`. -/
def parseHex4 : Nat → List Char → Option (List Char × List Char × Nat)
  | f + 1, a :: b :: c2 :: d :: r3 =>
    if isHexDigit a && isHexDigit b && isHexDigit c2 && isHexDigit d then
      (parseStrAux f r3).map (fun v =>
        (Char.ofNat (baseVal 16 [a, b, c2, d]) :: v.1, v.2.1, v.2.2 + 6))
    else none
  | _, _ => none
termination_by structural f _ => f

end

/-- A nonempty run of decimal digits: consumed length and rest. -/
def parseDigits1 (cs : List Char) : Option (Nat × List Char) :=
  let ds := cs.takeWhile isDigit
  if ds.isEmpty then none else some (ds.length, cs.drop ds.length)

/-- Optional fraction part of a JSON number: consumed length and rest. -/
def parseFracPart : List Char → Option (Nat × List Char)
  | [] => some (0, [])
  | c :: r =>
    if c = '.' then (parseDigits1 r).map (fun d => (1 + d.1, d.2))
    else some (0, c :: r)

/-- The digits of an exponent, after the `e`/`E` marker (optional sign);
consumed length counts the sign but not the marker. -/
def parseExpDigits : List Char → Option (Nat × List Char)
  | [] => none
  | c :: r2 =>
    if c = '+' || c = '-' then (parseDigits1 r2).map (fun d => (1 + d.1, d.2))
    else parseDigits1 (c :: r2)

/-- Optional exponent part of a JSON number: consumed length and rest. -/
def parseExpPart : List Char → Option (Nat × List Char)
  | [] => some (0, [])
  | e :: r =>
    if e = 'e' || e = 'E' then (parseExpDigits r).map (fun d => (1 + d.1, d.2))
    else some (0, e :: r)

/-- An unsigned JSON number token: consumed length and rest. -/
def parseNumBody (cs : List Char) : Option (Nat × List Char) :=
  let ds := cs.takeWhile isDigit
  if ds.isEmpty then none
  else if ds.length > 1 && ds.head? = some '0' then none
  else
    (parseFracPart (cs.drop ds.length)).bind (fun fr =>
      (parseExpPart fr.2).map (fun ex => (ds.length + fr.1 + ex.1, ex.2)))

/-- A JSON number token at position `pos`. -/
def parseNum : List Char → Nat → Option (JNode × List Char × Nat)
  | [], _ => none
  | c :: r, pos =>
    if c = '-' then
      (parseNumBody r).map (fun q => (.scalar pos (1 + q.1), q.2, pos + 1 + q.1))
    else
      (parseNumBody (c :: r)).map (fun q => (.scalar pos q.1, q.2, pos + q.1))

/-- `x :: rest` when the next character is `x`. -/
def expectChar (x : Char) : List Char → Option (List Char)
  | [] => none
  | c :: r => if c = x then some r else none

mutual

/-- A JSON value starting at `cs` (no leading whitespace), position `pos`.
Returns the node, the rest of the input, and the position after the value. -/
def parseVal : Nat → List Char → Nat → Option (JNode × List Char × Nat)
  | 0, _, _ => none
  | _ + 1, [], _ => none
  | f + 1, c :: r, pos =>
    if c = '{' then parseObjBody f (skipWs r).1 (skipWs r).2 pos
    else if c = '[' then parseArrBody f (skipWs r).1 (skipWs r).2 pos
    else if c = '"' then
      (parseStrAux (r.length + 1) r).map (fun v =>
        (.scalar pos (v.2.2 + 1), v.2.1, pos + v.2.2 + 1))
    else if c = 't' then
      if r.take 3 = "rue".data then some (.scalar pos 4, r.drop 3, pos + 4) else none
    else if c = 'f' then
      if r.take 4 = "alse".data then some (.scalar pos 5, r.drop 4, pos + 5) else none
    else if c = 'n' then
      if r.take 3 = "ull".data then some (.scalar pos 4, r.drop 3, pos + 4) else none
    else parseNum (c :: r) pos
termination_by structural f _ _ => f

/-- The inside of an object, after `{` and whitespace.  `w1` is the input,
`w2` the skipped whitespace count, `pos` the position of the `{`. -/
def parseObjBody : Nat → List Char → Nat → Nat → Option (JNode × List Char × Nat)
  | 0, _, _, _ => none
  | _ + 1, [], _, _ => none
  | f + 1, c2 :: r2, w2, pos =>
    if c2 = '}' then some (.obj pos (w2 + 2) [], r2, pos + w2 + 2)
    else
      (parseMembers f (c2 :: r2) (pos + 1 + w2)).map
        (fun m => (.obj pos (m.2.2 - pos) m.1, m.2.1, m.2.2))
termination_by structural f _ _ _ => f

/-- The inside of an array, after `[` and whitespace. -/
def parseArrBody : Nat → List Char → Nat → Nat → Option (JNode × List Char × Nat)
  | 0, _, _, _ => none
  | _ + 1, [], _, _ => none
  | f + 1, c2 :: r2, w2, pos =>
    if c2 = ']' then some (.arr pos (w2 + 2) [], r2, pos + w2 + 2)
    else
      (parseElems f (c2 :: r2) (pos + 1 + w2)).map
        (fun m => (.arr pos (m.2.2 - pos) m.1, m.2.1, m.2.2))
termination_by structural f _ _ _ => f

/-- Object members, starting at the first member's key quote; consumes
through the closing `}`.  The returned position is just after the `}`. -/
def parseMembers : Nat → List Char → Nat → Option (List (List Char × JNode) × List Char × Nat)
  | 0, _, _ => none
  | _ + 1, [], _ => none
  | f + 1, c :: r, pos =>
    if c = '"' then
      (parseStrAux (r.length + 1) r).bind (fun kv =>
        (expectChar ':' (skipWs kv.2.1).1).bind (fun r3 =>
          (parseVal f (skipWs r3).1
              (pos + 1 + kv.2.2 + (skipWs kv.2.1).2 + 1 + (skipWs r3).2)).bind (fun vr =>
            parseMemberSep f kv.1 vr.1 (skipWs vr.2.1).1 (vr.2.2 + (skipWs vr.2.1).2))))
    else none
termination_by structural f _ _ => f

/-- After one member's value and whitespace: `,` continues the member list,
`}` closes the object.  `pos` is the position of the separator. -/
def parseMemberSep : Nat → List Char → JNode → List Char → Nat →
    Option (List (List Char × JNode) × List Char × Nat)
  | 0, _, _, _, _ => none
  | _ + 1, _, _, [], _ => none
  | f + 1, key, v, c7 :: r7, pos =>
    if c7 = ',' then
      (parseMembers f (skipWs r7).1 (pos + 1 + (skipWs r7).2)).map
        (fun m => ((key, v) :: m.1, m.2.1, m.2.2))
    else if c7 = '}' then some ([(key, v)], r7, pos + 1)
    else none
termination_by structural f _ _ _ _ => f

/-- Array elements, starting at the first element; consumes through the
closing `]`.  The returned position is just after the `]`. -/
def parseElems : Nat → List Char → Nat → Option (List JNode × List Char × Nat)
  | 0, _, _ => none
  | f + 1, cs, pos =>
    (parseVal f cs pos).bind (fun vr =>
      parseElemSep f vr.1 (skipWs vr.2.1).1 (vr.2.2 + (skipWs vr.2.1).2))
termination_by structural f _ _ => f

/-- After one element and whitespace: `,` continues, `]` closes. -/
def parseElemSep : Nat → JNode → List Char → Nat → Option (List JNode × List Char × Nat)
  | 0, _, _, _ => none
  | _ + 1, _, [], _ => none
  | f + 1, v, c3 :: r3, pos =>
    if c3 = ',' then
      (parseElems f (skipWs r3).1 (pos + 1 + (skipWs r3).2)).map
        (fun m => (v :: m.1, m.2.1, m.2.2))
    else if c3 = ']' then some ([v], r3, pos + 1)
    else none
termination_by structural f _ _ _ => f

end

/-- Model of `parseTree(text)`: parse a whole document, requiring the text,
apart from surrounding whitespace, to be exactly one JSON value. -/
def parseDoc (cs : List Char) : Option JNode :=
  (parseVal (4 * cs.length + 4) (skipWs cs).1 (skipWs cs).2).bind (fun nr =>
    if (skipWs nr.2.1).1 = [] then some nr.1 else none)

/-! ## `findNodeAtLocation`

Model of `jsonc-parser`'s `findNodeAtLocation(root, path)`: a string segment
selects, on an object node, the value of the first property whose key equals
the segment; a numeric segment selects, on an array node, the element at
that index; every other combination is not found. -/

def findSeg : JNode → JsSeg → Option JNode
  | .obj _ _ props, .str s => (props.find? (fun p => p.1 == s)).map (·.2)
  | .arr _ _ elems, .idx i => elems.get? i
  | _, _ => none

def findPath : JNode → List JsSeg → Option JNode
  | n, [] => some n
  | n, sg :: rest =>
    match findSeg n sg with
    | some n2 => findPath n2 rest
    | none => none

/-! ## The verified functions of `src/patchUtils.ts` -/

/-- A resolved character range; the source calls the second field `end`
(a Lean keyword, rendered `stop`). -/
structure Range where
  start : Nat
  stop : Nat
deriving DecidableEq, Repr

/-- `getRangeForPointer(root, pointer)`. -/
def getRangeForPointer (root : Option JNode) (pointer : String) : Option Range :=
  match root with
  | none => none
  | some root =>
    if pointer = "" ∨ pointer = "/" then some ⟨offOf root, offOf root + lenOf root⟩
    else
      let segments := (splitSlash pointer.data).filter (fun s => !s.isEmpty)
      match findPath root (segments.map segToJs) with
      | some n => some ⟨offOf n, offOf n + lenOf n⟩
      | none => none

/-- Decimal rendering of an array index, as JavaScript template interpolation
`${i}` renders numbers. -/
def natToStrAux : Nat → Nat → List Char
  | 0, _ => []
  | f + 1, n =>
    if n < 10 then [Char.ofNat ('0'.toNat + n)]
    else natToStrAux f (n / 10) ++ [Char.ofNat ('0'.toNat + n % 10)]

def natToStr (n : Nat) : List Char := natToStrAux (n + 1) n

/-- The source's recursion test `valueNode.type === 'object' ||
valueNode.type === 'array'`. -/
def isContainer : JNode → Bool
  | .obj _ _ _ => true
  | .arr _ _ _ => true
  | .scalar _ _ => false

mutual

/-- `collectLeafPaths(node, currentPath, result)`: every leaf (non-object,
non-array) value of the document together with its pointer path, in
depth-first declaration order.  The imperative `result` accumulator is
rendered by returning the collected list. -/
def collectLeafPaths : JNode → List Char → List (List Char × JNode)
  | .scalar _ _, _ => []
  | .obj _ _ props, cur => collectProps props cur
  | .arr _ _ elems, cur => collectElems elems cur 0

def collectProps : List (List Char × JNode) → List Char → List (List Char × JNode)
  | [], _ => []
  | (k, v) :: rest, cur =>
    (if isContainer v then collectLeafPaths v (cur ++ '/' :: k)
     else [(cur ++ '/' :: k, v)]) ++ collectProps rest cur

def collectElems : List JNode → List Char → Nat → List (List Char × JNode)
  | [], _, _ => []
  | v :: rest, cur, i =>
    (if isContainer v then collectLeafPaths v (cur ++ '/' :: natToStr i)
     else [(cur ++ '/' :: natToStr i, v)]) ++ collectElems rest cur (i + 1)

end

/-- JavaScript `content.slice(a, b)` for non-negative indices (out-of-range
indices clamp). -/
def jsSlice (content : List Char) (a b : Nat) : List Char :=
  (content.drop a).take (b - a)

/-- `getNodeText(content, node)`. -/
def getNodeText (content : List Char) (node : JNode) : List Char :=
  jsSlice content (offOf node) (offOf node + lenOf node)

/-- One sparse override: a JSON pointer and the verbatim replacement text. -/
structure PatchRecord where
  path : String
  value : String
deriving DecidableEq, Repr

/-- `extractPatches(baselineContent, versionContent)`. -/
def extractPatches (baselineContent versionContent : String) : List PatchRecord :=
  match parseDoc baselineContent.data, parseDoc versionContent.data with
  | some baseRoot, some versionRoot =>
    (collectLeafPaths versionRoot []).filterMap (fun pl =>
      let versionValue := getNodeText versionContent.data pl.2
      match getRangeForPointer (some baseRoot) ⟨pl.1⟩ with
      | none => some ⟨⟨pl.1⟩, ⟨versionValue⟩⟩
      | some baseRange =>
        if jsSlice baselineContent.data baseRange.start baseRange.stop ≠ versionValue then
          some ⟨⟨pl.1⟩, ⟨versionValue⟩⟩
        else none)
  | _, _ => []

structure ApplyPatchesResult where
  content : String
  invalidPatches : List String
deriving DecidableEq, Repr

/-- The validity loop of `applyPatches`: splits the patch list, in order,
into resolved patches (with their ranges) and invalid paths. -/
def partitionPatches (root : JNode) : List PatchRecord → List (PatchRecord × Range) × List String
  | [] => ([], [])
  | p :: rest =>
    let vi := partitionPatches root rest
    match getRangeForPointer (some root) p.path with
    | some r => ((p, r) :: vi.1, vi.2)
    | none => (vi.1, p.path :: vi.2)

/-- Stable insertion into a list sorted by descending range start, modelling
`Array.prototype.sort` (stable since ES2019) with comparator
`(a, b) => b.range.start - a.range.start`. -/
def insertDesc (x : PatchRecord × Range) : List (PatchRecord × Range) → List (PatchRecord × Range)
  | [] => [x]
  | y :: ys => if x.2.start < y.2.start then y :: insertDesc x ys else x :: y :: ys

def sortDesc : List (PatchRecord × Range) → List (PatchRecord × Range)
  | [] => []
  | x :: xs => insertDesc x (sortDesc xs)

/-- One splice step:
`result.slice(0, range.start) + patch.value + result.slice(range.end)`. -/
def spliceStep (res : List Char) (pr : PatchRecord × Range) : List Char :=
  res.take pr.2.start ++ pr.1.value.data ++ res.drop pr.2.stop

/-- `applyPatches(baselineContent, patches)`. -/
def applyPatches (baselineContent : String) (patches : List PatchRecord) : ApplyPatchesResult :=
  if patches.isEmpty then ⟨baselineContent, []⟩
  else
    match parseDoc baselineContent.data with
    | none => ⟨baselineContent, patches.map (·.path)⟩
    | some root =>
      let vi := partitionPatches root patches
      let sorted := sortDesc vi.1
      ⟨⟨sorted.foldl spliceStep baselineContent.data⟩, vi.2⟩

/-- A stored profile: overrides for one file under one profile name. -/
structure VersionRecord where
  file : String
  profile : String
  patches : List PatchRecord
deriving DecidableEq, Repr

structure VersionHealth where
  file : String
  profile : String
  invalidPatches : List String
deriving DecidableEq, Repr

/-- The per-version loop of `checkVersionsHealth`; the `invalidPatches`
accumulator of the source's inner loop is rendered as a `filter`/`map`
(push order is input order), and the final `length > 0` test as `isEmpty`. -/
def healthLoop (root : JNode) (targetFile : String) : List VersionRecord → List VersionHealth
  | [] => []
  | v :: rest =>
    if v.file ≠ targetFile then healthLoop root targetFile rest
    else if ((v.patches.filter
        (fun p => (getRangeForPointer (some root) p.path).isNone)).map (·.path)).isEmpty then
      healthLoop root targetFile rest
    else
      ⟨v.file, v.profile,
        (v.patches.filter
          (fun p => (getRangeForPointer (some root) p.path).isNone)).map (·.path)⟩
        :: healthLoop root targetFile rest

/-- `checkVersionsHealth(baselineContent, versions, targetFile)`. -/
def checkVersionsHealth (baselineContent : String) (versions : List VersionRecord)
    (targetFile : String) : List VersionHealth :=
  match parseDoc baselineContent.data with
  | none => []
  | some root => healthLoop root targetFile versions

/-! ## C4, C9, C10: fail-soft behaviour on unparseable input

All three functions are total Lean functions, so "never throws" holds by
construction.  "Fails to parse as JSON" is read against the spec-modelled
strict parse (`parseDoc _ = none`); the real `jsonc-parser` is
fault-tolerant and can return a best-effort tree for some malformed texts,
which the spec leaves as an implementation choice. -/

/-- C4: on a baseline that fails to parse, `applyPatches` returns the
baseline text unchanged and reports every patch's path as invalid. -/
theorem claim_C4_fail_soft_application (base : String) (patches : List PatchRecord)
    (h : parseDoc base.data = none) :
    applyPatches base patches = ⟨base, patches.map (·.path)⟩ := by
  cases patches with
  | nil => simp [applyPatches]
  | cons p ps => simp [applyPatches, h]

theorem claim_C4_fail_soft_application_witness :
    parseDoc ("not json" : String).data = none ∧
    applyPatches "not json" [⟨"/b", "2"⟩] = ⟨"not json", ["/b"]⟩ :=
  ⟨rfl, claim_C4_fail_soft_application "not json" [⟨"/b", "2"⟩] rfl⟩

/-- C9: when either input text fails to parse, `extractPatches` returns the
empty patch list, the same value `extractPatches B B` yields on a valid
document with no recorded difference. -/
theorem claim_C9_extract_unparseable (b t : String)
    (h : parseDoc b.data = none ∨ parseDoc t.data = none) :
    extractPatches b t = [] := by
  unfold extractPatches
  cases hb : parseDoc b.data with
  | none => rfl
  | some rb =>
    cases ht : parseDoc t.data with
    | none => rfl
    | some rt =>
      rw [hb, ht] at h
      rcases h with h | h <;> exact absurd h (by simp)

theorem claim_C9_extract_unparseable_witness :
    parseDoc ("\x7boops" : String).data = none ∧
    extractPatches "\x7boops" "\x7b\"a\":1\x7d" = [] :=
  ⟨rfl, claim_C9_extract_unparseable "\x7boops" "\x7b\"a\":1\x7d" (Or.inl rfl)⟩

/-- C10: on a baseline that fails to parse, `checkVersionsHealth` reports no
profile at all. -/
theorem claim_C10_health_unparseable (base : String) (versions : List VersionRecord)
    (target : String) (h : parseDoc base.data = none) :
    checkVersionsHealth base versions target = [] := by
  simp [checkVersionsHealth, h]

theorem claim_C10_health_unparseable_witness :
    parseDoc ("[" : String).data = none ∧
    checkVersionsHealth "[" [⟨"f", "p", [⟨"/a", "1"⟩]⟩] "f" = [] :=
  ⟨rfl, claim_C10_health_unparseable "[" [⟨"f", "p", [⟨"/a", "1"⟩]⟩] "f" rfl⟩

/-! ## C5: unresolved patches are data, not errors -/

/-- The resolved half of the validity loop, as a `filterMap`. -/
theorem partitionPatches_fst (root : JNode) (l : List PatchRecord) :
    (partitionPatches root l).1
      = l.filterMap (fun p => (getRangeForPointer (some root) p.path).map (fun r => (p, r))) := by
  induction l with
  | nil => rfl
  | cons p ps ih =>
    simp only [partitionPatches, List.filterMap_cons]
    cases h : getRangeForPointer (some root) p.path <;> simp [h, ih]

/-- The invalid half of the validity loop, as a `filter`. -/
theorem partitionPatches_snd (root : JNode) (l : List PatchRecord) :
    (partitionPatches root l).2
      = (l.filter (fun p => getRangeForPointer (some root) p.path = none)).map (·.path) := by
  induction l with
  | nil => rfl
  | cons p ps ih =>
    simp only [partitionPatches]
    cases h : getRangeForPointer (some root) p.path <;> simp [h, ih, List.filter_cons]

/-- Dropping the unresolvable patches beforehand does not change the
resolved half. -/
theorem filterMap_filter_isSome (root : JNode) (l : List PatchRecord) :
    ((l.filter (fun p => (getRangeForPointer (some root) p.path).isSome)).filterMap
        (fun p => (getRangeForPointer (some root) p.path).map (fun r => (p, r))))
      = l.filterMap (fun p => (getRangeForPointer (some root) p.path).map (fun r => (p, r))) := by
  induction l with
  | nil => rfl
  | cons p ps ih =>
    cases h : getRangeForPointer (some root) p.path <;>
      simp [List.filter_cons, List.filterMap_cons, h, ih]

/-- On a parseable baseline the applied content is the splice fold over the
descending-sorted resolved patches — also when the patch list is empty,
since splicing nothing returns the baseline. -/
theorem applyPatches_content (base : String) (l : List PatchRecord) (root : JNode)
    (h : parseDoc base.data = some root) :
    (applyPatches base l).content
      = ⟨(sortDesc (l.filterMap
            (fun p => (getRangeForPointer (some root) p.path).map (fun r => (p, r))))).foldl
          spliceStep base.data⟩ := by
  cases l with
  | nil => rfl
  | cons p ps => simp [applyPatches, h, partitionPatches_fst]

/-- C5: on a parseable baseline, `applyPatches` reports exactly the
non-resolving patches' paths as `invalidPatches` (in input order), and its
content is the content obtained from the resolving patches alone; the
operation is a total function.  In particular, baseline `{"a":1}` with the
single patch `/b := 2` returns the baseline text and `invalidPatches =
["/b"]`. -/
theorem claim_C5_unresolved_reported_as_data :
    (applyPatches "\x7b\"a\":1\x7d" [⟨"/b", "2"⟩] = ⟨"\x7b\"a\":1\x7d", ["/b"]⟩) ∧
    ∀ (base : String) (patches : List PatchRecord) (root : JNode),
      parseDoc base.data = some root →
      (applyPatches base patches).invalidPatches
          = (patches.filter (fun p => getRangeForPointer (some root) p.path = none)).map (·.path)
        ∧ (applyPatches base patches).content
          = (applyPatches base
              (patches.filter (fun p => (getRangeForPointer (some root) p.path).isSome))).content := by
  refine ⟨rfl, ?_⟩
  intro base patches root h
  constructor
  · cases patches with
    | nil => simp [applyPatches]
    | cons p ps => simp [applyPatches, h, partitionPatches_snd]
  · rw [applyPatches_content base patches root h,
      applyPatches_content base _ root h, filterMap_filter_isSome]

theorem claim_C5_unresolved_reported_as_data_witness :
    parseDoc ("\x7b\"a\":1,\"b\":2\x7d" : String).data
        = some (.obj 0 13 [(['a'], .scalar 5 1), (['b'], .scalar 11 1)]) ∧
    (applyPatches "\x7b\"a\":1,\"b\":2\x7d" [⟨"/zz", "9"⟩, ⟨"/a", "7"⟩]).invalidPatches = ["/zz"] ∧
    (applyPatches "\x7b\"a\":1,\"b\":2\x7d" [⟨"/zz", "9"⟩, ⟨"/a", "7"⟩]).content
      = (applyPatches "\x7b\"a\":1,\"b\":2\x7d" [⟨"/a", "7"⟩]).content := by
  refine ⟨rfl, ?_, ?_⟩
  · exact (claim_C5_unresolved_reported_as_data.2 "\x7b\"a\":1,\"b\":2\x7d"
      [⟨"/zz", "9"⟩, ⟨"/a", "7"⟩] (.obj 0 13 [(['a'], .scalar 5 1), (['b'], .scalar 11 1)])
      rfl).1.trans rfl
  · exact (claim_C5_unresolved_reported_as_data.2 "\x7b\"a\":1,\"b\":2\x7d"
      [⟨"/zz", "9"⟩, ⟨"/a", "7"⟩] (.obj 0 13 [(['a'], .scalar 5 1), (['b'], .scalar 11 1)])
      rfl).2.trans rfl

/-! ## C6: the health check is exact and sparse

The batch scan is pure by construction (a total function on immutable
values), so "no mutation" holds trivially; the content of the claim is the
refinement below. -/

/-- The health check as spec §4.4 words it: among the profiles of the target
file, exactly those with at least one non-resolving pointer are reported,
each with exactly its failing pointers; profiles whose pointers all resolve
are omitted. -/
def checkHealthSpec (root : JNode) (versions : List VersionRecord)
    (targetFile : String) : List VersionHealth :=
  (versions.filter (fun v => v.file = targetFile)).filterMap (fun v =>
    if (v.patches.filter
        (fun p => getRangeForPointer (some root) p.path = none)).map (·.path) = [] then none
    else some ⟨v.file, v.profile,
      (v.patches.filter (fun p => getRangeForPointer (some root) p.path = none)).map (·.path)⟩)

theorem checkHealthSpec_cons_skip (root : JNode) (v : VersionRecord) (vs : List VersionRecord)
    (target : String) (hf : v.file ≠ target) :
    checkHealthSpec root (v :: vs) target = checkHealthSpec root vs target := by
  unfold checkHealthSpec
  rw [List.filter_cons_of_neg]
  simp [hf]

theorem checkHealthSpec_cons_healthy (root : JNode) (v : VersionRecord)
    (vs : List VersionRecord) (target : String) (hf : v.file = target)
    (hinv : (v.patches.filter
      (fun p => getRangeForPointer (some root) p.path = none)).map (·.path) = []) :
    checkHealthSpec root (v :: vs) target = checkHealthSpec root vs target := by
  unfold checkHealthSpec
  rw [List.filter_cons_of_pos (by simpa using hf), List.filterMap_cons]
  simp [hinv]

theorem checkHealthSpec_cons_unhealthy (root : JNode) (v : VersionRecord)
    (vs : List VersionRecord) (target : String) (hf : v.file = target)
    (hinv : (v.patches.filter
      (fun p => getRangeForPointer (some root) p.path = none)).map (·.path) ≠ []) :
    checkHealthSpec root (v :: vs) target
      = ⟨v.file, v.profile,
          (v.patches.filter
            (fun p => getRangeForPointer (some root) p.path = none)).map (·.path)⟩
        :: checkHealthSpec root vs target := by
  unfold checkHealthSpec
  rw [List.filter_cons_of_pos (by simpa using hf), List.filterMap_cons]
  simp [hinv]

theorem healthLoop_eq_spec (root : JNode) (target : String) (l : List VersionRecord) :
    healthLoop root target l = checkHealthSpec root l target := by
  induction l with
  | nil => rfl
  | cons v vs ih =>
    have hfl : (v.patches.filter
          (fun p => (getRangeForPointer (some root) p.path).isNone)).map (·.path)
        = (v.patches.filter
          (fun p => getRangeForPointer (some root) p.path = none)).map (·.path) := by
      congr 1
      apply List.filter_congr
      intro p _
      cases getRangeForPointer (some root) p.path <;> simp
    by_cases hf : v.file = target
    · by_cases hinv : (v.patches.filter
          (fun p => getRangeForPointer (some root) p.path = none)).map (fun p => p.path) = []
      · rw [checkHealthSpec_cons_healthy root v vs target hf hinv, ← ih]
        simp only [healthLoop, hfl]
        rw [if_neg (not_not_intro hf)]
        simp [hinv]
      · rw [checkHealthSpec_cons_unhealthy root v vs target hf hinv, ← ih]
        simp only [healthLoop, hfl]
        rw [if_neg (not_not_intro hf)]
        simp [hinv]
    · rw [checkHealthSpec_cons_skip root v vs target hf, ← ih]
      simp only [healthLoop]
      rw [if_pos hf]

/-- C6: on a parseable baseline, `checkVersionsHealth` computes exactly the
sparse result described by the spec. -/
theorem claim_C6_health_exact_and_sparse (base : String) (versions : List VersionRecord)
    (target : String) (root : JNode) (h : parseDoc base.data = some root) :
    checkVersionsHealth base versions target = checkHealthSpec root versions target := by
  unfold checkVersionsHealth
  rw [h]
  exact healthLoop_eq_spec root target versions

theorem claim_C6_health_exact_and_sparse_witness :
    parseDoc ("\x7b\"a\":1\x7d" : String).data = some (.obj 0 7 [(['a'], .scalar 5 1)]) ∧
    checkVersionsHealth "\x7b\"a\":1\x7d"
        [⟨"f", "p1", [⟨"/b", "99"⟩]⟩, ⟨"f", "p2", [⟨"/a", "7"⟩]⟩, ⟨"g", "p3", [⟨"/b", "0"⟩]⟩] "f"
      = [⟨"f", "p1", ["/b"]⟩] := by
  refine ⟨rfl, ?_⟩
  exact (claim_C6_health_exact_and_sparse "\x7b\"a\":1\x7d"
    [⟨"f", "p1", [⟨"/b", "99"⟩]⟩, ⟨"f", "p2", [⟨"/a", "7"⟩]⟩, ⟨"g", "p3", [⟨"/b", "0"⟩]⟩]
    "f" (.obj 0 7 [(['a'], .scalar 5 1)]) rfl).trans rfl

/-! ## C3: the applied content is invariant under patch-list permutation
when the resolved start offsets are pairwise distinct -/

theorem insertDesc_perm (x : PatchRecord × Range) (l : List (PatchRecord × Range)) :
    (insertDesc x l).Perm (x :: l) := by
  induction l with
  | nil => exact List.Perm.refl _
  | cons y ys ih =>
    unfold insertDesc
    by_cases h : x.2.start < y.2.start
    · rw [if_pos h]
      exact (ih.cons y).trans (List.Perm.swap x y ys)
    · rw [if_neg h]

theorem sortDesc_perm (l : List (PatchRecord × Range)) : (sortDesc l).Perm l := by
  induction l with
  | nil => exact List.Perm.refl _
  | cons x xs ih => exact (insertDesc_perm x (sortDesc xs)).trans (ih.cons x)

theorem insertDesc_sorted (x : PatchRecord × Range) (l : List (PatchRecord × Range))
    (h : l.Pairwise (fun a b => b.2.start ≤ a.2.start)) :
    (insertDesc x l).Pairwise (fun a b => b.2.start ≤ a.2.start) := by
  induction l with
  | nil => simp [insertDesc]
  | cons y ys ih =>
    rw [List.pairwise_cons] at h
    unfold insertDesc
    by_cases hxy : x.2.start < y.2.start
    · rw [if_pos hxy]
      rw [List.pairwise_cons]
      refine ⟨?_, ih h.2⟩
      intro z hz
      rcases List.mem_cons.mp ((insertDesc_perm x ys).mem_iff.mp hz) with hz | hz
      · exact hz ▸ Nat.le_of_lt hxy
      · exact h.1 z hz
    · rw [if_neg hxy]
      rw [List.pairwise_cons]
      refine ⟨?_, List.pairwise_cons.mpr h⟩
      intro z hz
      rcases List.mem_cons.mp hz with hz | hz
      · exact hz ▸ Nat.le_of_not_lt hxy
      · exact Nat.le_trans (h.1 z hz) (Nat.le_of_not_lt hxy)

theorem sortDesc_sorted (l : List (PatchRecord × Range)) :
    (sortDesc l).Pairwise (fun a b => b.2.start ≤ a.2.start) := by
  induction l with
  | nil => simp [sortDesc]
  | cons x xs ih => exact insertDesc_sorted x (sortDesc xs) ih

/-- Two descending-sorted permutations of each other with pairwise-distinct
start offsets are equal. -/
theorem sorted_desc_nodup_unique :
    ∀ l₁ l₂ : List (PatchRecord × Range), l₁.Perm l₂ →
      l₁.Pairwise (fun a b => b.2.start ≤ a.2.start) →
      l₂.Pairwise (fun a b => b.2.start ≤ a.2.start) →
      (l₁.map (fun x => x.2.start)).Nodup → l₁ = l₂
  | [], l₂, hp, _, _, _ => (hp.symm.eq_nil).symm
  | x :: xs, [], hp, _, _, _ => absurd hp.eq_nil (by simp)
  | x :: xs, y :: ys, hp, hs₁, hs₂, hn => by
    rw [List.pairwise_cons] at hs₁ hs₂
    have hxy : x = y := by
      by_contra hne
      have hxmem : x ∈ y :: ys := hp.mem_iff.mp (List.mem_cons_self x xs)
      have hx : x ∈ ys := by
        rcases List.mem_cons.mp hxmem with h | h
        · exact absurd h hne
        · exact h
      have hymem : y ∈ x :: xs := hp.symm.mem_iff.mp (List.mem_cons_self y ys)
      have hy : y ∈ xs := by
        rcases List.mem_cons.mp hymem with h | h
        · exact absurd h.symm hne
        · exact h
      have h₁ : x.2.start ≤ y.2.start := hs₂.1 x hx
      have h₂ : y.2.start ≤ x.2.start := hs₁.1 y hy
      have heq : x.2.start = y.2.start := Nat.le_antisymm h₁ h₂
      have hn₂ : ((y :: ys).map (fun x => x.2.start)).Nodup := (hp.map _).nodup hn
      rw [List.map_cons, List.nodup_cons] at hn₂
      exact hn₂.1 (heq ▸ List.mem_map_of_mem _ hx)
    subst hxy
    have htail := hp.cons_inv
    rw [List.map_cons, List.nodup_cons] at hn
    rw [sorted_desc_nodup_unique xs ys htail hs₁.2 hs₂.2 hn.2]

/-- Start offsets of the resolved (patch, range) pairs are the start offsets
of the resolved ranges. -/
theorem filterMap_pair_starts (root : JNode) (l : List PatchRecord) :
    ((l.filterMap
        (fun p => (getRangeForPointer (some root) p.path).map (fun r => (p, r)))).map
      (fun x => x.2.start))
      = (l.filterMap (fun p => getRangeForPointer (some root) p.path)).map Range.start := by
  induction l with
  | nil => rfl
  | cons p ps ih =>
    cases h : getRangeForPointer (some root) p.path <;>
      simp [List.filterMap_cons, h, ih]

/-- C3: on the concrete baseline `{"a":1,"b":2,"c":3}`, the two patches
`/a := 10`, `/c := 30` produce `{"a":10,"b":2,"c":30}` in both input orders;
in general, on a parseable baseline the applied content is invariant under
any permutation of the patch list whose resolved ranges have
pairwise-distinct start offsets. -/
theorem claim_C3_order_invariant_application :
    ((applyPatches "\x7b\"a\":1,\"b\":2,\"c\":3\x7d" [⟨"/a", "10"⟩, ⟨"/c", "30"⟩]).content
        = "\x7b\"a\":10,\"b\":2,\"c\":30\x7d"
      ∧ (applyPatches "\x7b\"a\":1,\"b\":2,\"c\":3\x7d" [⟨"/c", "30"⟩, ⟨"/a", "10"⟩]).content
        = "\x7b\"a\":10,\"b\":2,\"c\":30\x7d") ∧
    ∀ (base : String) (l₁ l₂ : List PatchRecord) (root : JNode),
      parseDoc base.data = some root → l₁.Perm l₂ →
      ((l₁.filterMap (fun p => getRangeForPointer (some root) p.path)).map Range.start).Nodup →
      (applyPatches base l₁).content = (applyPatches base l₂).content := by
  refine ⟨⟨rfl, rfl⟩, ?_⟩
  intro base l₁ l₂ root h hperm hnodup
  rw [applyPatches_content base l₁ root h, applyPatches_content base l₂ root h]
  have hv : (l₁.filterMap
        (fun p => (getRangeForPointer (some root) p.path).map (fun r => (p, r)))).Perm
      (l₂.filterMap
        (fun p => (getRangeForPointer (some root) p.path).map (fun r => (p, r)))) :=
    hperm.filterMap _
  have hn₁ : ((l₁.filterMap
      (fun p => (getRangeForPointer (some root) p.path).map (fun r => (p, r)))).map
        (fun x => x.2.start)).Nodup := by
    rw [filterMap_pair_starts]
    exact hnodup
  have hsort : sortDesc (l₁.filterMap
        (fun p => (getRangeForPointer (some root) p.path).map (fun r => (p, r))))
      = sortDesc (l₂.filterMap
        (fun p => (getRangeForPointer (some root) p.path).map (fun r => (p, r)))) := by
    apply sorted_desc_nodup_unique
    · exact (sortDesc_perm _).trans (hv.trans (sortDesc_perm _).symm)
    · exact sortDesc_sorted _
    · exact sortDesc_sorted _
    · exact (((sortDesc_perm _).map _).nodup_iff).mpr hn₁
  rw [hsort]

theorem claim_C3_order_invariant_application_witness :
    (applyPatches "\x7b\"a\":1,\"b\":2,\"c\":3\x7d" [⟨"/a", "10"⟩, ⟨"/c", "30"⟩]).content
      = (applyPatches "\x7b\"a\":1,\"b\":2,\"c\":3\x7d" [⟨"/c", "30"⟩, ⟨"/a", "10"⟩]).content :=
  claim_C3_order_invariant_application.2 "\x7b\"a\":1,\"b\":2,\"c\":3\x7d"
    [⟨"/a", "10"⟩, ⟨"/c", "30"⟩] [⟨"/c", "30"⟩, ⟨"/a", "10"⟩]
    (.obj 0 19 [(['a'], .scalar 5 1), (['b'], .scalar 11 1), (['c'], .scalar 17 1)])
    rfl (by decide) (by decide)

/-! ## Pointer resolution of collected leaf paths

The heart of C7 (sparsity), C2 (object addressing) and C1 (round trip): a
leaf path produced by `collectLeafPaths` resolves, through
`getRangeForPointer`'s split/`Number()`/find pipeline, back to the span of
that very leaf — provided the object keys along the way are *pointer-safe*:
not recognised as numbers by JavaScript `Number()`, free of `'/'`, and
unique among their siblings. -/

theorem char_toNat_inj {a b : Char} (h : a.toNat = b.toNat) : a = b :=
  Char.ext (UInt32.ext h)

theorem isDigit_bounds {c : Char} (h : isDigit c = true) : 48 ≤ c.toNat ∧ c.toNat ≤ 57 := by
  rw [isDigit, Bool.and_eq_true] at h
  exact ⟨of_decide_eq_true h.1, of_decide_eq_true h.2⟩

theorem jsWs_toNat_bounds {c : Char} (h : isJsWs c = true) :
    c.toNat < 48 ∨ 57 < c.toNat := by
  rw [isJsWs] at h
  simp only [Bool.or_eq_true, Bool.and_eq_true, decide_eq_true_eq] at h
  omega

theorem isDigit_not_jsWs {c : Char} (h : isDigit c = true) : isJsWs c = false := by
  obtain ⟨h1, h2⟩ := isDigit_bounds h
  cases hw : isJsWs c with
  | false => rfl
  | true => rcases jsWs_toNat_bounds hw with h3 | h3 <;> omega

theorem isDigit_ne_slash {c : Char} (h : isDigit c = true) : c ≠ '/' := by
  obtain ⟨h1, _⟩ := isDigit_bounds h
  intro he
  rw [he] at h1
  exact absurd h1 (by decide)

/-- `digitsVal` unfolds on a final digit. -/
theorem digitsVal_append_digit (ds : List Char) (c : Char) :
    digitsVal (ds ++ [c]) = 10 * digitsVal ds + hexDigitVal c := by
  unfold digitsVal baseVal
  rw [List.foldl_append]
  rfl

theorem hexDigitVal_digitChar {d : Nat} (h : d < 10) :
    hexDigitVal (Char.ofNat ('0'.toNat + d)) = d := by
  interval_cases d <;> decide

theorem isDigit_digitChar {d : Nat} (h : d < 10) :
    isDigit (Char.ofNat ('0'.toNat + d)) = true := by
  interval_cases d <;> decide

theorem natToStrAux_spec :
    ∀ f n, n < f →
      natToStrAux f n ≠ [] ∧ (∀ c ∈ natToStrAux f n, isDigit c = true) ∧
        digitsVal (natToStrAux f n) = n := by
  intro f
  induction f with
  | zero => intro n h; omega
  | succ f ih =>
    intro n h
    rw [natToStrAux]
    by_cases h10 : n < 10
    · rw [if_pos h10]
      refine ⟨by simp, ?_, ?_⟩
      · intro c hc
        rw [List.mem_singleton] at hc
        exact hc ▸ isDigit_digitChar h10
      · show digitsVal ([] ++ [Char.ofNat ('0'.toNat + n)]) = n
        rw [digitsVal_append_digit, hexDigitVal_digitChar h10]
        have hz : digitsVal [] = 0 := rfl
        omega
    · rw [if_neg h10]
      have hdiv : n / 10 < f := by omega
      obtain ⟨hne, hdig, hval⟩ := ih (n / 10) hdiv
      refine ⟨by simp [hne], ?_, ?_⟩
      · intro c hc
        rcases List.mem_append.mp hc with hc | hc
        · exact hdig c hc
        · rw [List.mem_singleton] at hc
          exact hc ▸ isDigit_digitChar (Nat.mod_lt _ (by omega))
      · rw [digitsVal_append_digit, hval, hexDigitVal_digitChar (Nat.mod_lt _ (by omega))]
        omega

theorem natToStr_ne_nil (n : Nat) : natToStr n ≠ [] :=
  (natToStrAux_spec (n + 1) n (Nat.lt_succ_self n)).1

theorem natToStr_digits (n : Nat) : ∀ c ∈ natToStr n, isDigit c = true :=
  (natToStrAux_spec (n + 1) n (Nat.lt_succ_self n)).2.1

theorem digitsVal_natToStr (n : Nat) : digitsVal (natToStr n) = n :=
  (natToStrAux_spec (n + 1) n (Nat.lt_succ_self n)).2.2

theorem dropWhile_eq_self_of_all {p : Char → Bool} {s : List Char}
    (h : ∀ c ∈ s, p c = false) : s.dropWhile p = s := by
  cases s with
  | nil => rfl
  | cons c r =>
    rw [List.dropWhile_cons, h c (List.mem_cons_self _ _)]
    simp

theorem trimJs_of_no_ws {s : List Char} (h : ∀ c ∈ s, isJsWs c = false) : trimJs s = s := by
  unfold trimJs
  rw [dropWhile_eq_self_of_all h, dropWhile_eq_self_of_all, List.reverse_reverse]
  intro c hc
  exact h c (List.mem_reverse.mp hc)

/-- `Number(s)` on a pure (nonempty) decimal digit string is its decimal
value. -/
theorem jsNumberOf_digits {s : List Char} (hne : s ≠ [])
    (hd : ∀ c ∈ s, isDigit c = true) :
    jsNumberOf s = some (.finite false (digitsVal s) 0) := by
  have htrim : trimJs s = s :=
    trimJs_of_no_ws (fun c hc => isDigit_not_jsWs (hd c hc))
  rcases s with _ | ⟨c, r⟩
  · exact absurd rfl hne
  have hc := hd c (List.mem_cons_self _ _)
  obtain ⟨hc48, hc57⟩ := isDigit_bounds hc
  have hcp : c ≠ '+' := by intro he; rw [he] at hc48; exact absurd hc48 (by decide)
  have hcm : c ≠ '-' := by intro he; rw [he] at hc48; exact absurd hc48 (by decide)
  have hnondec : parseNonDec (c :: r) = none := by
    rcases r with _ | ⟨x, r2⟩
    · rfl
    · have hx := hd x (List.mem_cons_of_mem c (List.mem_cons_self _ _))
      obtain ⟨hx48, hx57⟩ := isDigit_bounds hx
      have hxval : ∀ ch : Char, 65 < ch.toNat → ¬ x = ch := by
        intro ch hch he
        rw [he] at hx57
        omega
      rw [parseNonDec]
      by_cases hc0 : c = '0'
      · rw [if_pos hc0]
        rw [if_neg, if_neg, if_neg]
        · intro hcon
          simp only [Bool.and_eq_true, Bool.or_eq_true, decide_eq_true_eq] at hcon
          rcases hcon.1.1 with hb | hb
          · exact hxval _ (by decide) hb
          · exact hxval _ (by decide) hb
        · intro hcon
          simp only [Bool.and_eq_true, Bool.or_eq_true, decide_eq_true_eq] at hcon
          rcases hcon.1.1 with hb | hb
          · exact hxval _ (by decide) hb
          · exact hxval _ (by decide) hb
        · intro hcon
          simp only [Bool.and_eq_true, Bool.or_eq_true, decide_eq_true_eq] at hcon
          rcases hcon.1.1 with hb | hb
          · exact hxval _ (by decide) hb
          · exact hxval _ (by decide) hb
      · rw [if_neg hc0]
  have hinf : (c :: r) ≠ "Infinity".data := by
    intro he
    have : c = 'I' := by
      have := congrArg (fun l => l.head?) he
      simpa using this
    obtain ⟨_, hc57⟩ := isDigit_bounds hc
    rw [this] at hc57
    exact absurd hc57 (by decide)
  have hdec : parseDecBody (c :: r) = some (digitsVal (c :: r), 0) := by
    unfold parseDecBody
    rw [List.takeWhile_eq_self_iff.mpr hd]
    simp only [List.drop_length]
    rw [if_neg (by simp)]
  rw [jsNumberOf, htrim, jsNumberTrimmed, if_neg hcp, if_neg hcm, hnondec,
    parseSignedTail, if_neg hinf, hdec]
  rfl

theorem segToJs_of_nan {k : List Char} (h : jsNumberOf k = none) : segToJs k = .str k := by
  rw [segToJs, h, segOfNum]

theorem segToJs_natToStr (i : Nat) : segToJs (natToStr i) = .idx i := by
  rw [segToJs, jsNumberOf_digits (natToStr_ne_nil i) (natToStr_digits i),
    digitsVal_natToStr, segOfNum]
  by_cases h0 : i = 0
  · simp [h0]
  · rw [if_neg h0, if_neg (by simp), if_pos (by decide)]
    simp

/-! ### Pointer-safe trees -/

/-- A pointer-safe object key: JavaScript `Number()` does not recognise it
(so the pointer pipeline keeps it a string segment) and it contains no
`'/'` (so it survives `pointer.split('/')`). -/
def goodKey (k : List Char) : Bool :=
  (jsNumberOf k).isNone && k.all (fun c => c ≠ '/')

mutual

/-- Every object in the tree has pointer-safe keys, pairwise-distinct among
siblings. -/
def goodTree : JNode → Bool
  | .scalar _ _ => true
  | .obj _ _ props => goodProps props
  | .arr _ _ elems => goodElems elems

def goodProps : List (List Char × JNode) → Bool
  | [] => true
  | (k, v) :: rest =>
    goodKey k && !((rest.map Prod.fst).contains k) && goodTree v && goodProps rest

def goodElems : List JNode → Bool
  | [] => true
  | v :: rest => goodTree v && goodElems rest

end

theorem goodKey_nan {k : List Char} (h : goodKey k = true) : jsNumberOf k = none := by
  rw [goodKey, Bool.and_eq_true] at h
  exact Option.isNone_iff_eq_none.mp h.1

theorem goodKey_ne_nil {k : List Char} (h : goodKey k = true) : k ≠ [] := by
  intro he
  rw [he] at h
  exact absurd h (by decide)

theorem goodKey_no_slash {k : List Char} (h : goodKey k = true) : ∀ c ∈ k, c ≠ '/' := by
  rw [goodKey, Bool.and_eq_true, List.all_eq_true] at h
  intro c hc
  exact of_decide_eq_true (h.2 c hc)

/-! ### Rendering and splitting of segment lists -/

/-- The path text of a segment list, as `collectLeafPaths` renders it. -/
def renderSegs (segs : List (List Char)) : List Char :=
  (segs.map (fun s => '/' :: s)).flatten

theorem renderSegs_cons (s : List Char) (segs : List (List Char)) :
    renderSegs (s :: segs) = '/' :: (s ++ renderSegs segs) := by
  simp [renderSegs]

theorem splitSlashAux_append {s : List Char} (rest acc : List Char)
    (h : ∀ c ∈ s, c ≠ '/') :
    splitSlashAux (s ++ rest) acc = splitSlashAux rest (s.reverse ++ acc) := by
  induction s generalizing acc with
  | nil => simp
  | cons c s' ih =>
    rw [List.cons_append, splitSlashAux,
      if_neg (h c (List.mem_cons_self _ _)),
      ih _ (fun d hd => h d (List.mem_cons_of_mem c hd))]
    simp

theorem splitSlashAux_render (segs : List (List Char)) (acc : List Char)
    (h : ∀ s ∈ segs, ∀ c ∈ s, c ≠ '/') :
    splitSlashAux (renderSegs segs) acc = acc.reverse :: segs := by
  induction segs generalizing acc with
  | nil => rfl
  | cons s rest ih =>
    rw [renderSegs_cons, splitSlashAux, if_pos rfl,
      splitSlashAux_append _ _ (h s (List.mem_cons_self _ _)),
      ih _ (fun s' hs' => h s' (List.mem_cons_of_mem s hs'))]
    simp

theorem splitSlash_render (segs : List (List Char))
    (h : ∀ s ∈ segs, ∀ c ∈ s, c ≠ '/') :
    splitSlash (renderSegs segs) = [] :: segs := by
  rw [splitSlash, splitSlashAux_render segs [] h]
  rfl

/-- Strong induction on the node size, the induction scheme used for the
nested tree type. -/
theorem jnode_strong_ind (P : JNode → Prop)
    (h : ∀ t, (∀ t', sizeOf t' < sizeOf t → P t') → P t) : ∀ t, P t
  | t => h t (fun t' ht' => jnode_strong_ind P h t')
termination_by t => sizeOf t
decreasing_by exact ht'

theorem bool_ite_true {α : Sort u} (a b : α) : (if true = true then a else b) = a := rfl

theorem bool_ite_false {α : Sort u} (a b : α) : (if false = true then a else b) = b := rfl

theorem sizeOf_val_lt_obj {o l : Nat} {props : List (List Char × JNode)} {k : List Char}
    {v : JNode} (h : (k, v) ∈ props) : sizeOf v < sizeOf (JNode.obj o l props) := by
  have h1 := List.sizeOf_lt_of_mem h
  simp only [JNode.obj.sizeOf_spec, Prod.mk.sizeOf_spec] at *
  omega

theorem sizeOf_elem_lt_arr {o l : Nat} {elems : List JNode} {v : JNode}
    (h : v ∈ elems) : sizeOf v < sizeOf (JNode.arr o l elems) := by
  have h1 := List.sizeOf_lt_of_mem h
  simp only [JNode.arr.sizeOf_spec] at *
  omega

theorem goodProps_cons {k : List Char} {v : JNode} {rest : List (List Char × JNode)}
    (h : goodProps ((k, v) :: rest) = true) :
    goodKey k = true ∧ k ∉ rest.map Prod.fst ∧ goodTree v = true ∧
      goodProps rest = true := by
  rw [goodProps] at h
  simp only [Bool.and_eq_true, Bool.not_eq_true'] at h
  refine ⟨h.1.1.1, ?_, h.1.2, h.2⟩
  have h2 := h.1.1.2
  simp only [List.elem_eq_mem, decide_eq_false_iff_not] at h2
  exact h2

theorem goodElems_cons {v : JNode} {rest : List JNode}
    (h : goodElems (v :: rest) = true) :
    goodTree v = true ∧ goodElems rest = true := by
  rw [goodElems, Bool.and_eq_true] at h
  exact h

/-- Main resolution lemma: on a pointer-safe tree, every collected leaf path
renders a segment list that the pointer pipeline resolves back to that very
leaf node. -/
theorem resolve_collect :
    ∀ t : JNode, goodTree t = true → ∀ cur p n, (p, n) ∈ collectLeafPaths t cur →
      ∃ segs : List (List Char), p = cur ++ renderSegs segs ∧ segs ≠ [] ∧
        (∀ s ∈ segs, s ≠ [] ∧ ∀ c ∈ s, c ≠ '/') ∧
        findPath t (segs.map segToJs) = some n := by
  apply jnode_strong_ind (fun t => goodTree t = true → ∀ cur p n,
    (p, n) ∈ collectLeafPaths t cur →
    ∃ segs : List (List Char), p = cur ++ renderSegs segs ∧ segs ≠ [] ∧
      (∀ s ∈ segs, s ≠ [] ∧ ∀ c ∈ s, c ≠ '/') ∧
      findPath t (segs.map segToJs) = some n)
  intro t IH hg cur p n hmem
  cases t with
  | scalar o l =>
    rw [collectLeafPaths] at hmem
    exact absurd hmem (List.not_mem_nil _)
  | obj o l props =>
    rw [goodTree] at hg
    rw [collectLeafPaths] at hmem
    have hsz' : ∀ kv ∈ props, sizeOf kv.2 < sizeOf (JNode.obj o l props) := by
      intro kv hkv
      obtain ⟨k, v⟩ := kv
      exact sizeOf_val_lt_obj hkv
    have inner : ∀ props' : List (List Char × JNode),
        (∀ kv ∈ props', sizeOf kv.2 < sizeOf (JNode.obj o l props)) →
        goodProps props' = true → ∀ cur' p' n', (p', n') ∈ collectProps props' cur' →
        ∃ k v segs',
          (List.find? (fun q => q.1 == k) props') = some (k, v) ∧
          goodKey k = true ∧
          p' = cur' ++ renderSegs (k :: segs') ∧
          (∀ s ∈ k :: segs', s ≠ [] ∧ ∀ c ∈ s, c ≠ '/') ∧
          findPath v (segs'.map segToJs) = some n' := by
      intro props'
      induction props' with
      | nil =>
        intro _ _ cur' p' n' hm
        rw [collectProps] at hm
        exact absurd hm (List.not_mem_nil _)
      | cons kv rest ihp =>
        intro hsz' hgp cur' p' n' hm
        obtain ⟨k, v⟩ := kv
        obtain ⟨hgk, hcont, hgv, hgrest⟩ := goodProps_cons hgp
        have hkgoods : k ≠ [] ∧ ∀ c ∈ k, c ≠ '/' :=
          ⟨goodKey_ne_nil hgk, goodKey_no_slash hgk⟩
        rw [collectProps] at hm
        rcases List.mem_append.mp hm with hm | hm
        · -- the leaf lies under the head property
          cases v with
          | scalar vo vl =>
            rw [isContainer, bool_ite_false] at hm
            simp only [List.mem_singleton, Prod.mk.injEq] at hm
            refine ⟨k, .scalar vo vl, [], ?_, hgk, ?_, ?_, ?_⟩
            · exact List.find?_cons_of_pos _ (by simp)
            · rw [hm.1, renderSegs_cons, renderSegs]
              simp
            · intro s hs
              rw [List.mem_singleton] at hs
              exact hs ▸ hkgoods
            · rw [List.map_nil, findPath, hm.2]
          | obj vo vl vprops =>
            rw [isContainer, bool_ite_true] at hm
            obtain ⟨segs₂, hps, hne₂, hgood₂, hfp₂⟩ :=
              IH _ (hsz' (k, .obj vo vl vprops) (List.mem_cons_self _ _)) hgv _ _ _ hm
            refine ⟨k, .obj vo vl vprops, segs₂, ?_, hgk, ?_, ?_, hfp₂⟩
            · exact List.find?_cons_of_pos _ (by simp)
            · rw [hps, renderSegs_cons]
              simp
            · intro s hs
              rcases List.mem_cons.mp hs with hs | hs
              · exact hs ▸ hkgoods
              · exact hgood₂ s hs
          | arr vo vl velems =>
            rw [isContainer, bool_ite_true] at hm
            obtain ⟨segs₂, hps, hne₂, hgood₂, hfp₂⟩ :=
              IH _ (hsz' (k, .arr vo vl velems) (List.mem_cons_self _ _)) hgv _ _ _ hm
            refine ⟨k, .arr vo vl velems, segs₂, ?_, hgk, ?_, ?_, hfp₂⟩
            · exact List.find?_cons_of_pos _ (by simp)
            · rw [hps, renderSegs_cons]
              simp
            · intro s hs
              rcases List.mem_cons.mp hs with hs | hs
              · exact hs ▸ hkgoods
              · exact hgood₂ s hs
        · -- the leaf lies under a later property
          obtain ⟨k', v', segs', hfind, hgk', hp', hsegs', hfp'⟩ :=
            ihp (fun kv hkv => hsz' kv (List.mem_cons_of_mem _ hkv)) hgrest cur' p' n' hm
          have hk'mem : k' ∈ rest.map Prod.fst :=
            List.mem_map_of_mem Prod.fst (List.mem_of_find?_eq_some hfind)
          have hkk' : ¬ (((k, v).1 == k') = true) := by
            simp only [beq_iff_eq]
            intro he
            exact hcont (he ▸ hk'mem)
          refine ⟨k', v', segs', ?_, hgk', hp', hsegs', hfp'⟩
          rw [@List.find?_cons_of_neg _ (fun q => q.1 == k') (k, v) rest hkk']
          exact hfind
    obtain ⟨k, v, segs', hfind, hgk, hp, hsegs, hfp⟩ := inner props hsz' hg cur p n hmem
    refine ⟨k :: segs', hp, by simp, hsegs, ?_⟩
    rw [List.map_cons, segToJs_of_nan (goodKey_nan hgk), findPath, findSeg, hfind]
    simpa using hfp
  | arr o l elems =>
    rw [goodTree] at hg
    rw [collectLeafPaths] at hmem
    have hsz' : ∀ e ∈ elems, sizeOf e < sizeOf (JNode.arr o l elems) := by
      intro e he
      exact sizeOf_elem_lt_arr he
    have inner : ∀ elems' : List JNode,
        (∀ e ∈ elems', sizeOf e < sizeOf (JNode.arr o l elems)) →
        goodElems elems' = true → ∀ cur' i₀ p' n', (p', n') ∈ collectElems elems' cur' i₀ →
        ∃ j v segs',
          elems'.get? j = some v ∧
          p' = cur' ++ renderSegs (natToStr (i₀ + j) :: segs') ∧
          (∀ s ∈ natToStr (i₀ + j) :: segs', s ≠ [] ∧ ∀ c ∈ s, c ≠ '/') ∧
          findPath v (segs'.map segToJs) = some n' := by
      intro elems'
      induction elems' with
      | nil =>
        intro _ _ cur' i₀ p' n' hm
        rw [collectElems] at hm
        exact absurd hm (List.not_mem_nil _)
      | cons v rest ihe =>
        intro hsz' hge cur' i₀ p' n' hm
        obtain ⟨hgv, hgrest⟩ := goodElems_cons hge
        have hidx : ∀ m : Nat, natToStr m ≠ [] ∧ ∀ c ∈ natToStr m, c ≠ '/' :=
          fun m => ⟨natToStr_ne_nil m, fun c hc => isDigit_ne_slash (natToStr_digits m c hc)⟩
        rw [collectElems] at hm
        rcases List.mem_append.mp hm with hm | hm
        · cases v with
          | scalar vo vl =>
            rw [isContainer, bool_ite_false] at hm
            simp only [List.mem_singleton, Prod.mk.injEq] at hm
            refine ⟨0, .scalar vo vl, [], rfl, ?_, ?_, ?_⟩
            · rw [hm.1, Nat.add_zero, renderSegs_cons, renderSegs]
              simp
            · intro s hs
              rw [List.mem_singleton] at hs
              rw [Nat.add_zero] at hs
              exact hs ▸ hidx i₀
            · rw [List.map_nil, findPath, hm.2]
          | obj vo vl vprops =>
            rw [isContainer, bool_ite_true] at hm
            obtain ⟨segs₂, hps, hne₂, hgood₂, hfp₂⟩ :=
              IH _ (hsz' (.obj vo vl vprops) (List.mem_cons_self _ _)) hgv _ _ _ hm
            refine ⟨0, .obj vo vl vprops, segs₂, rfl, ?_, ?_, hfp₂⟩
            · rw [hps, Nat.add_zero, renderSegs_cons]
              simp
            · intro s hs
              rcases List.mem_cons.mp hs with hs | hs
              · rw [Nat.add_zero] at hs
                exact hs ▸ hidx i₀
              · exact hgood₂ s hs
          | arr vo vl velems =>
            rw [isContainer, bool_ite_true] at hm
            obtain ⟨segs₂, hps, hne₂, hgood₂, hfp₂⟩ :=
              IH _ (hsz' (.arr vo vl velems) (List.mem_cons_self _ _)) hgv _ _ _ hm
            refine ⟨0, .arr vo vl velems, segs₂, rfl, ?_, ?_, hfp₂⟩
            · rw [hps, Nat.add_zero, renderSegs_cons]
              simp
            · intro s hs
              rcases List.mem_cons.mp hs with hs | hs
              · rw [Nat.add_zero] at hs
                exact hs ▸ hidx i₀
              · exact hgood₂ s hs
        · obtain ⟨j', v', segs', hget, hp', hsegs', hfp'⟩ :=
            ihe (fun e he => hsz' e (List.mem_cons_of_mem _ he)) hgrest cur' (i₀ + 1) p' n' hm
          have hj : i₀ + 1 + j' = i₀ + (j' + 1) := by omega
          rw [hj] at hp' hsegs'
          exact ⟨j' + 1, v', segs', by simpa using hget, hp', hsegs', hfp'⟩
    obtain ⟨j, v, segs', hget, hp, hsegs, hfp⟩ := inner elems hsz' hg cur 0 p n hmem
    rw [Nat.zero_add] at hp hsegs
    refine ⟨natToStr j :: segs', hp, by simp, hsegs, ?_⟩
    rw [List.map_cons, segToJs_natToStr, findPath, findSeg, hget]
    exact hfp

/-- On a pointer-safe tree, `getRangeForPointer` maps every collected leaf
path to that leaf's own span. -/
theorem getRange_of_collect {t : JNode} (hg : goodTree t = true) {p : List Char} {n : JNode}
    (hm : (p, n) ∈ collectLeafPaths t []) :
    getRangeForPointer (some t) ⟨p⟩ = some ⟨offOf n, offOf n + lenOf n⟩ := by
  obtain ⟨segs, hp, hne, hgood, hfind⟩ := resolve_collect t hg [] p n hm
  rw [List.nil_append] at hp
  subst hp
  rcases segs with _ | ⟨s₀, rest⟩
  · exact absurd rfl hne
  obtain ⟨hs₀ne, _⟩ := hgood s₀ (List.mem_cons_self _ _)
  have hdata : (String.mk (renderSegs (s₀ :: rest))).data = renderSegs (s₀ :: rest) := rfl
  rw [getRangeForPointer, if_neg]
  · have hsplit : splitSlash (String.mk (renderSegs (s₀ :: rest))).data = [] :: s₀ :: rest := by
      rw [hdata]
      exact splitSlash_render _ (fun s hs => (hgood s hs).2)
    rw [hsplit]
    have hfilter : (([] : List Char) :: s₀ :: rest).filter (fun s => !s.isEmpty)
        = s₀ :: rest := by
      rw [List.filter_cons, if_neg (by simp)]
      apply List.filter_eq_self.mpr
      intro a ha
      have := (hgood a ha).1
      simp [List.isEmpty_iff, this]
    rw [hfilter]
    simp only [hfind]
  · rintro (h | h)
    · have : renderSegs (s₀ :: rest) = [] := congrArg String.data h
      rw [renderSegs_cons] at this
      exact absurd this (by simp)
    · have : renderSegs (s₀ :: rest) = ['/'] := congrArg String.data h
      rw [renderSegs_cons] at this
      have : s₀ ++ renderSegs rest = [] := by
        injection this
      exact hs₀ne (List.append_eq_nil.mp this).1

/-! ## C7: sparsity of extraction -/

/-- C7 (amended): on a baseline that parses to a pointer-safe tree,
extracting a document against itself records no patch. -/
theorem claim_C7_sparsity (B : String) (root : JNode)
    (h : parseDoc B.data = some root) (hg : goodTree root = true) :
    extractPatches B B = [] := by
  unfold extractPatches
  rw [h]
  apply List.filterMap_eq_nil_iff.mpr
  intro pl hpl
  have hr := getRange_of_collect hg (p := pl.1) (n := pl.2) hpl
  simp only [hr, getNodeText]
  rw [if_neg (by simp)]

/-- C7 counterexample to the claim as stated: for the syntactically valid
baseline `{"1":5}` — whose single key is the digit string `"1"` —
`extractPatches(B, B)` records a patch for `/1` (the pointer round-trips the
digit key through JavaScript `Number()` and fails to resolve), so the
extracted list is not empty. -/
theorem claim_C7_sparsity_counterexample :
    extractPatches "\x7b\"1\":5\x7d" "\x7b\"1\":5\x7d" = [⟨"/1", "5"⟩] ∧
      extractPatches "\x7b\"1\":5\x7d" "\x7b\"1\":5\x7d" ≠ [] := by
  refine ⟨rfl, by decide⟩

theorem claim_C7_sparsity_witness :
    parseDoc ("\x7b\"a\":1,\"b\":[1,2]\x7d" : String).data
        = some (.obj 0 17 [(['a'], .scalar 5 1),
            (['b'], .arr 11 5 [.scalar 12 1, .scalar 14 1])]) ∧
    goodTree (.obj 0 17 [(['a'], .scalar 5 1),
        (['b'], .arr 11 5 [.scalar 12 1, .scalar 14 1])]) = true ∧
    extractPatches "\x7b\"a\":1,\"b\":[1,2]\x7d" "\x7b\"a\":1,\"b\":[1,2]\x7d" = [] := by
  refine ⟨rfl, by decide, ?_⟩
  exact claim_C7_sparsity "\x7b\"a\":1,\"b\":[1,2]\x7d"
    (.obj 0 17 [(['a'], .scalar 5 1), (['b'], .arr 11 5 [.scalar 12 1, .scalar 14 1])])
    rfl (by decide)

/-! ## C2: object addressing -/

/-- C2 counterexample to the claim as stated: the document `{"1":5}` has a
property whose key is exactly the digit-string segment `"1"`, yet the
pointer `/1` does not resolve — `getRangeForPointer` converts the segment
with `Number()` into the numeric segment `1`, which the node finder only
matches against array indices, never object keys. -/
theorem claim_C2_counterexample :
    parseDoc ("\x7b\"1\":5\x7d" : String).data = some (.obj 0 7 [(['1'], .scalar 5 1)]) ∧
    segToJs ['1'] = .idx 1 ∧
    getRangeForPointer (parseDoc ("\x7b\"1\":5\x7d" : String).data) "/1" = none :=
  ⟨rfl, rfl, rfl⟩

/-- C2 (amended): for a single-segment pointer `/s` whose segment JavaScript
`Number()` does not recognise (NaN) and which contains no `'/'`, resolution
on an object root descends into the value of the first property whose key
equals the segment exactly, and returns NotFound precisely when no property
key equals the segment.  Digit-string segments are excluded: they are
converted to array indices and never match object keys. -/
theorem claim_C2_object_key_resolution (off len : Nat) (props : List (List Char × JNode))
    (s : String) (hnan : jsNumberOf s.data = none) (hslash : ∀ c ∈ s.data, c ≠ '/') :
    getRangeForPointer (some (.obj off len props)) ("/" ++ s)
        = (props.find? (fun q => q.1 == s.data)).map
            (fun q => ⟨offOf q.2, offOf q.2 + lenOf q.2⟩)
      ∧ (getRangeForPointer (some (.obj off len props)) ("/" ++ s) = none
          ↔ ∀ kv ∈ props, kv.1 ≠ s.data) := by
  have hsne : s.data ≠ [] := by
    intro he
    rw [he] at hnan
    exact absurd hnan (by decide)
  have hdata : ("/" ++ s).data = '/' :: s.data := by
    rw [String.data_append]
    rfl
  have hmain : getRangeForPointer (some (.obj off len props)) ("/" ++ s)
      = (props.find? (fun q => q.1 == s.data)).map
          (fun q => ⟨offOf q.2, offOf q.2 + lenOf q.2⟩) := by
    rw [getRangeForPointer, if_neg]
    · have hrender : ('/' :: s.data : List Char) = renderSegs [s.data] := by
        rw [renderSegs_cons, renderSegs]
        simp
      have hsplit : splitSlash ("/" ++ s).data = [] :: [s.data] := by
        rw [hdata, hrender]
        exact splitSlash_render _ (by simpa using hslash)
      rw [hsplit]
      have hfilter : (([] : List Char) :: [s.data]).filter (fun s => !s.isEmpty)
          = [s.data] := by
        rw [List.filter_cons, if_neg (by simp), List.filter_cons, if_pos (by simp [hsne]),
          List.filter_nil]
      rw [hfilter]
      simp only [List.map_cons, List.map_nil, segToJs_of_nan hnan, findPath, findSeg]
      cases hfq : props.find? (fun q => q.1 == s.data) with
      | none => rfl
      | some q => rfl
    · rintro (h | h)
      · have := congrArg String.data h
        rw [hdata] at this
        exact absurd this (by simp)
      · have := congrArg String.data h
        rw [hdata] at this
        have : s.data = [] := by injection this
        exact hsne this
  refine ⟨hmain, ?_⟩
  rw [hmain]
  cases hfq : props.find? (fun q => q.1 == s.data) with
  | none =>
    simp only [Option.map_none', true_iff]
    intro kv hkv
    have := List.find?_eq_none.mp hfq kv hkv
    simpa using this
  | some q =>
    simp only [Option.map_some']
    constructor
    · intro h
      exact absurd h (by simp)
    · intro h
      have hqmem := List.mem_of_find?_eq_some hfq
      have hqeq : (q.1 == s.data) = true :=
        @List.find?_some _ (fun q => q.1 == s.data) q props hfq
      exact absurd (by simpa using hqeq) (h q hqmem)

theorem claim_C2_object_key_resolution_witness :
    jsNumberOf ("a" : String).data = none ∧
    getRangeForPointer (some (.obj 0 7 [(['a'], .scalar 5 1)])) "/a"
      = some ⟨5, 6⟩ := by
  refine ⟨rfl, ?_⟩
  exact (claim_C2_object_key_resolution 0 7 [(['a'], .scalar 5 1)] "a" rfl
    (by decide)).1.trans rfl

/-! ## Well-formed spans

The parser only ever produces trees whose node spans nest properly: children
lie strictly inside their parent's span, siblings occupy disjoint,
left-to-right increasing ranges, and scalar spans are nonempty.  This is all
the round-trip argument needs from the parser — no token-level correctness
is required. -/

mutual

def NodeWF : JNode → Prop
  | .scalar _ len => 1 ≤ len
  | .obj off len props => 1 ≤ len ∧ PropsWF (off + 1) (off + len) props
  | .arr off len elems => 1 ≤ len ∧ ElemsWF (off + 1) (off + len) elems

def PropsWF : Nat → Nat → List (List Char × JNode) → Prop
  | lo, hi, [] => lo ≤ hi
  | lo, hi, (_, v) :: rest => lo ≤ offOf v ∧ NodeWF v ∧ PropsWF (offOf v + lenOf v) hi rest

def ElemsWF : Nat → Nat → List JNode → Prop
  | lo, hi, [] => lo ≤ hi
  | lo, hi, v :: rest => lo ≤ offOf v ∧ NodeWF v ∧ ElemsWF (offOf v + lenOf v) hi rest

end

theorem PropsWF_mono : ∀ (props : List (List Char × JNode)) {lo hi lo' hi' : Nat},
    lo' ≤ lo → hi ≤ hi' → PropsWF lo hi props → PropsWF lo' hi' props
  | [], _, _, _, _, h1, h2, h => by
    rw [PropsWF] at *
    omega
  | (k, v) :: rest, _, _, _, _, h1, h2, h => by
    rw [PropsWF] at *
    exact ⟨Nat.le_trans h1 h.1, h.2.1, PropsWF_mono rest (Nat.le_refl _) h2 h.2.2⟩

theorem ElemsWF_mono : ∀ (elems : List JNode) {lo hi lo' hi' : Nat},
    lo' ≤ lo → hi ≤ hi' → ElemsWF lo hi elems → ElemsWF lo' hi' elems
  | [], _, _, _, _, h1, h2, h => by
    rw [ElemsWF] at *
    omega
  | v :: rest, _, _, _, _, h1, h2, h => by
    rw [ElemsWF] at *
    exact ⟨Nat.le_trans h1 h.1, h.2.1, ElemsWF_mono rest (Nat.le_refl _) h2 h.2.2⟩

theorem takeWhile_length_le (p : Char → Bool) (l : List Char) :
    (l.takeWhile p).length ≤ l.length := by
  induction l with
  | nil => simp
  | cons c r ih =>
    rw [List.takeWhile_cons]
    by_cases h : p c <;> simp [h] <;> omega

theorem skipWs_consumes (cs : List Char) : (skipWs cs).2 + (skipWs cs).1.length = cs.length := by
  show (cs.takeWhile isJsonWs).length + (cs.dropWhile isJsonWs).length = cs.length
  have := congrArg List.length (List.takeWhile_append_dropWhile (p := isJsonWs) (l := cs))
  rw [List.length_append] at this
  omega

/-- Joint consumption facts for the string scanner: a successful scan consumes
at least the closing quote, and the consumed count plus the remainder equals
the available input (offset by the characters, backslash and `u`, that the
caller already consumed before entering `parseEscSeq` / `parseHex4`). -/
theorem strScan_consumes : ∀ f : Nat,
    (∀ cs v rest k, parseStrAux f cs = some (v, rest, k) →
      1 ≤ k ∧ k + rest.length = cs.length) ∧
    (∀ cs v rest k, parseEscSeq f cs = some (v, rest, k) →
      2 ≤ k ∧ k + rest.length = cs.length + 1) ∧
    (∀ cs v rest k, parseHex4 f cs = some (v, rest, k) →
      6 ≤ k ∧ k + rest.length = cs.length + 2) := by
  intro f
  induction f with
  | zero =>
    refine ⟨?_, ?_, ?_⟩ <;> intro cs v rest k h
    · rw [show parseStrAux 0 cs = none from rfl] at h
      exact absurd h (by simp)
    · rw [show parseEscSeq 0 cs = none from rfl] at h
      exact absurd h (by simp)
    · rw [show parseHex4 0 cs = none from rfl] at h
      exact absurd h (by simp)
  | succ f ih =>
    obtain ⟨ihS, ihE, ihH⟩ := ih
    refine ⟨?_, ?_, ?_⟩
    · intro cs v rest k h
      cases cs with
      | nil => exact absurd h (by rw [show parseStrAux (f + 1) [] = none from rfl]; simp)
      | cons c r =>
        rw [parseStrAux] at h
        by_cases hq : c = '"'
        · rw [if_pos hq] at h
          simp only [Option.some.injEq, Prod.mk.injEq] at h
          obtain ⟨-, hrest, hk⟩ := h
          subst hrest; subst hk
          simp only [List.length_cons]
          omega
        · rw [if_neg hq] at h
          by_cases hb : c = '\\'
          · rw [if_pos hb] at h
            obtain ⟨hk1, hk2⟩ := ihE r v rest k h
            simp only [List.length_cons]
            omega
          · rw [if_neg hb] at h
            by_cases hc : c.toNat < 0x20
            · rw [if_pos hc] at h
              exact absurd h (by simp)
            · rw [if_neg hc] at h
              rcases hmap : parseStrAux f r with _ | ⟨⟨v1, rest1, k1⟩⟩
              · rw [hmap] at h
                exact absurd h (by simp)
              · rw [hmap] at h
                simp only [Option.map_some', Option.some.injEq, Prod.mk.injEq] at h
                obtain ⟨-, hrest, hk⟩ := h
                obtain ⟨hk1, hk2⟩ := ihS r v1 rest1 k1 hmap
                subst hrest; subst hk
                simp only [List.length_cons]
                omega
    · intro cs v rest k h
      cases cs with
      | nil => exact absurd h (by rw [show parseEscSeq (f + 1) [] = none from rfl]; simp)
      | cons e r2 =>
        rw [parseEscSeq] at h
        by_cases hu : e = 'u'
        · rw [if_pos hu] at h
          obtain ⟨hk1, hk2⟩ := ihH r2 v rest k h
          simp only [List.length_cons]
          omega
        · rw [if_neg hu] at h
          cases hesc : escChar e with
          | none => rw [hesc] at h; exact absurd h (by simp)
          | some ch =>
            rw [hesc] at h
            rcases hmap : parseStrAux f r2 with _ | ⟨⟨v1, rest1, k1⟩⟩
            · rw [hmap] at h
              exact absurd h (by simp)
            · rw [hmap] at h
              simp only [Option.some_bind, Option.map_some', Option.some.injEq,
                Prod.mk.injEq] at h
              obtain ⟨-, hrest, hk⟩ := h
              obtain ⟨hk1, hk2⟩ := ihS r2 v1 rest1 k1 hmap
              subst hrest; subst hk
              simp only [List.length_cons]
              omega
    · intro cs v rest k h
      rcases cs with _ | ⟨a, _ | ⟨b, _ | ⟨c2, _ | ⟨d, r3⟩⟩⟩⟩
      · exact absurd h (by rw [show parseHex4 (f + 1) [] = none from rfl]; simp)
      · exact absurd h (by rw [show parseHex4 (f + 1) [a] = none from rfl]; simp)
      · exact absurd h (by rw [show parseHex4 (f + 1) [a, b] = none from rfl]; simp)
      · exact absurd h (by rw [show parseHex4 (f + 1) [a, b, c2] = none from rfl]; simp)
      · rw [parseHex4] at h
        by_cases hh : isHexDigit a && isHexDigit b && isHexDigit c2 && isHexDigit d
        · rw [if_pos hh] at h
          rcases hmap : parseStrAux f r3 with _ | ⟨⟨v1, rest1, k1⟩⟩
          · rw [hmap] at h
            exact absurd h (by simp)
          · rw [hmap] at h
            simp only [Option.map_some', Option.some.injEq, Prod.mk.injEq] at h
            obtain ⟨-, hrest, hk⟩ := h
            obtain ⟨hk1, hk2⟩ := ihS r3 v1 rest1 k1 hmap
            subst hrest; subst hk
            simp only [List.length_cons]
            omega
        · rw [if_neg hh] at h
          exact absurd h (by simp)

theorem parseStrAux_consumes {f : Nat} {cs v rest : List Char} {k : Nat}
    (h : parseStrAux f cs = some (v, rest, k)) :
    1 ≤ k ∧ k + rest.length = cs.length :=
  (strScan_consumes f).1 cs v rest k h

theorem parseDigits1_consumes {cs : List Char} {d : Nat} {rest : List Char}
    (h : parseDigits1 cs = some (d, rest)) : 1 ≤ d ∧ d + rest.length = cs.length := by
  rw [parseDigits1] at h
  by_cases hds : (cs.takeWhile isDigit).isEmpty
  · rw [if_pos hds] at h
    exact absurd h (by simp)
  · rw [if_neg hds] at h
    simp only [Option.some.injEq, Prod.mk.injEq] at h
    obtain ⟨h1, h2⟩ := h
    subst h1; subst h2
    have hle : (cs.takeWhile isDigit).length ≤ cs.length := takeWhile_length_le _ _
    have hne : cs.takeWhile isDigit ≠ [] := by
      simpa [List.isEmpty_iff] using hds
    have hpos := List.length_pos.mpr hne
    simp only [List.length_drop]
    omega

theorem parseFracPart_consumes {cs : List Char} {fl : Nat} {rest : List Char}
    (h : parseFracPart cs = some (fl, rest)) : fl + rest.length = cs.length := by
  cases cs with
  | nil =>
    rw [parseFracPart] at h
    simp only [Option.some.injEq, Prod.mk.injEq] at h
    obtain ⟨h1, h2⟩ := h
    subst h1; subst h2
    rfl
  | cons c r =>
    rw [parseFracPart] at h
    by_cases hdot : c = '.'
    · rw [if_pos hdot] at h
      rcases hd : parseDigits1 r with _ | ⟨⟨d1, r1⟩⟩
      · rw [hd] at h
        exact absurd h (by simp)
      · rw [hd] at h
        simp only [Option.map_some', Option.some.injEq, Prod.mk.injEq] at h
        obtain ⟨h1, h2⟩ := h
        subst h1; subst h2
        obtain ⟨-, hc⟩ := parseDigits1_consumes hd
        simp only [List.length_cons]
        omega
    · rw [if_neg hdot] at h
      simp only [Option.some.injEq, Prod.mk.injEq] at h
      obtain ⟨h1, h2⟩ := h
      subst h1; subst h2
      omega

theorem parseExpDigits_consumes {cs : List Char} {el : Nat} {rest : List Char}
    (h : parseExpDigits cs = some (el, rest)) : el + rest.length = cs.length := by
  cases cs with
  | nil =>
    rw [parseExpDigits] at h
    exact absurd h (by simp)
  | cons c r2 =>
    rw [parseExpDigits] at h
    by_cases hs : c = '+' || c = '-'
    · rw [if_pos hs] at h
      rcases hd : parseDigits1 r2 with _ | ⟨⟨d1, r1⟩⟩
      · rw [hd] at h
        exact absurd h (by simp)
      · rw [hd] at h
        simp only [Option.map_some', Option.some.injEq, Prod.mk.injEq] at h
        obtain ⟨h1, h2⟩ := h
        subst h1; subst h2
        obtain ⟨-, hc⟩ := parseDigits1_consumes hd
        simp only [List.length_cons]
        omega
    · rw [if_neg hs] at h
      obtain ⟨-, hc⟩ := parseDigits1_consumes h
      omega

theorem parseExpPart_consumes {cs : List Char} {el : Nat} {rest : List Char}
    (h : parseExpPart cs = some (el, rest)) : el + rest.length = cs.length := by
  cases cs with
  | nil =>
    rw [parseExpPart] at h
    simp only [Option.some.injEq, Prod.mk.injEq] at h
    obtain ⟨h1, h2⟩ := h
    subst h1; subst h2
    rfl
  | cons e r =>
    rw [parseExpPart] at h
    by_cases he : e = 'e' || e = 'E'
    · rw [if_pos he] at h
      rcases hd : parseExpDigits r with _ | ⟨⟨d1, r1⟩⟩
      · rw [hd] at h
        exact absurd h (by simp)
      · rw [hd] at h
        simp only [Option.map_some', Option.some.injEq, Prod.mk.injEq] at h
        obtain ⟨h1, h2⟩ := h
        subst h1; subst h2
        have hc := parseExpDigits_consumes hd
        simp only [List.length_cons]
        omega
    · rw [if_neg he] at h
      simp only [Option.some.injEq, Prod.mk.injEq] at h
      obtain ⟨h1, h2⟩ := h
      subst h1; subst h2
      omega

theorem parseNumBody_consumes {cs : List Char} {n : Nat} {rest : List Char}
    (h : parseNumBody cs = some (n, rest)) : 1 ≤ n ∧ n + rest.length = cs.length := by
  rw [parseNumBody] at h
  by_cases hds : (cs.takeWhile isDigit).isEmpty
  · rw [if_pos hds] at h
    exact absurd h (by simp)
  · rw [if_neg hds] at h
    by_cases hlead : (cs.takeWhile isDigit).length > 1 ∧
        (cs.takeWhile isDigit).head? = some '0'
    · rw [if_pos (by simpa using hlead)] at h
      exact absurd h (by simp)
    · rw [if_neg (by simpa using hlead)] at h
      rcases hfrac : parseFracPart (cs.drop (cs.takeWhile isDigit).length)
        with _ | ⟨⟨fl, r2⟩⟩
      · rw [hfrac] at h
        exact absurd h (by simp)
      · rw [hfrac] at h
        simp only [Option.some_bind] at h
        rcases hexp : parseExpPart r2 with _ | ⟨⟨el, r3⟩⟩
        · rw [hexp] at h
          exact absurd h (by simp)
        · rw [hexp] at h
          simp only [Option.some_bind, Option.map_some', Option.some.injEq,
            Prod.mk.injEq] at h
          obtain ⟨h1, h2⟩ := h
          subst h1; subst h2
          have hfc := parseFracPart_consumes hfrac
          have hec := parseExpPart_consumes hexp
          have hle : (cs.takeWhile isDigit).length ≤ cs.length := takeWhile_length_le _ _
          have hne : cs.takeWhile isDigit ≠ [] := by
            simpa [List.isEmpty_iff] using hds
          have hpos := List.length_pos.mpr hne
          simp only [List.length_drop] at hfc
          omega

theorem parseNum_sound {cs : List Char} {pos : Nat} {n : JNode} {rest : List Char}
    {pos' : Nat} (h : parseNum cs pos = some (n, rest, pos')) :
    offOf n = pos ∧ NodeWF n ∧ pos' = pos + lenOf n ∧ pos' + rest.length = pos + cs.length := by
  cases cs with
  | nil =>
    rw [parseNum] at h
    exact absurd h (by simp)
  | cons c r =>
    rw [parseNum] at h
    by_cases hm : c = '-'
    · rw [if_pos hm] at h
      rcases hb : parseNumBody r with _ | ⟨⟨q1, q2⟩⟩
      · rw [hb] at h
        exact absurd h (by simp)
      · rw [hb] at h
        simp only [Option.map_some', Option.some.injEq, Prod.mk.injEq] at h
        obtain ⟨hn, hrest, hpos⟩ := h
        subst hn; subst hrest; subst hpos
        obtain ⟨hb1, hb2⟩ := parseNumBody_consumes hb
        refine ⟨rfl, ?_, ?_, ?_⟩
        · show 1 ≤ 1 + q1
          omega
        · show pos + 1 + q1 = pos + (1 + q1)
          omega
        · simp only [List.length_cons]
          omega
    · rw [if_neg hm] at h
      rcases hb : parseNumBody (c :: r) with _ | ⟨⟨q1, q2⟩⟩
      · rw [hb] at h
        exact absurd h (by simp)
      · rw [hb] at h
        simp only [Option.map_some', Option.some.injEq, Prod.mk.injEq] at h
        obtain ⟨hn, hrest, hpos⟩ := h
        subst hn; subst hrest; subst hpos
        obtain ⟨hb1, hb2⟩ := parseNumBody_consumes hb
        refine ⟨rfl, hb1, rfl, ?_⟩
        simp only [List.length_cons] at *
        omega

theorem expectChar_eq {x : Char} {cs r : List Char} (h : expectChar x cs = some r) :
    cs = x :: r := by
  cases cs with
  | nil => exact absurd h (by rw [expectChar]; simp)
  | cons c r2 =>
    rw [expectChar] at h
    by_cases hc : c = x
    · rw [if_pos hc] at h
      simp only [Option.some.injEq] at h
      rw [hc, h]
    · rw [if_neg hc] at h
      exact absurd h (by simp)

/-- Soundness of `parseVal` at fuel `f`: a successful parse starting at text
position `pos` returns a well-formed node sitting exactly at `pos`, and the
returned position accounts exactly for the consumed input. -/
def ValOk (f : Nat) : Prop :=
  ∀ cs pos n rest pos', parseVal f cs pos = some (n, rest, pos') →
    offOf n = pos ∧ NodeWF n ∧ pos' = pos + lenOf n ∧ pos' + rest.length = pos + cs.length

/-- Soundness of `parseObjBody`: the input starts at text position
`pos + 1 + w2` (after the brace and the skipped whitespace). -/
def ObjOk (f : Nat) : Prop :=
  ∀ cs w2 pos n rest pos', parseObjBody f cs w2 pos = some (n, rest, pos') →
    offOf n = pos ∧ NodeWF n ∧ pos' = pos + lenOf n ∧
      pos' + rest.length = pos + 1 + w2 + cs.length

/-- Soundness of `parseArrBody` (as `ObjOk`). -/
def ArrOk (f : Nat) : Prop :=
  ∀ cs w2 pos n rest pos', parseArrBody f cs w2 pos = some (n, rest, pos') →
    offOf n = pos ∧ NodeWF n ∧ pos' = pos + lenOf n ∧
      pos' + rest.length = pos + 1 + w2 + cs.length

/-- Soundness of `parseMembers`: the returned members chain well-formedly
from `pos` to the returned position. -/
def MemOk (f : Nat) : Prop :=
  ∀ cs pos props rest pos', parseMembers f cs pos = some (props, rest, pos') →
    PropsWF pos pos' props ∧ pos + 1 ≤ pos' ∧ pos' + rest.length = pos + cs.length

/-- Soundness of `parseMemberSep`, given that the pending value `v` is
well-formed and ends at or before the separator position. -/
def MemSepOk (f : Nat) : Prop :=
  ∀ key v cs pos props rest pos', parseMemberSep f key v cs pos = some (props, rest, pos') →
    NodeWF v → offOf v + lenOf v ≤ pos →
    PropsWF (offOf v) pos' props ∧ pos + 1 ≤ pos' ∧ pos' + rest.length = pos + cs.length

/-- Soundness of `parseElems` (as `MemOk`). -/
def ElOk (f : Nat) : Prop :=
  ∀ cs pos elems rest pos', parseElems f cs pos = some (elems, rest, pos') →
    ElemsWF pos pos' elems ∧ pos + 1 ≤ pos' ∧ pos' + rest.length = pos + cs.length

/-- Soundness of `parseElemSep` (as `MemSepOk`). -/
def ElSepOk (f : Nat) : Prop :=
  ∀ v cs pos elems rest pos', parseElemSep f v cs pos = some (elems, rest, pos') →
    NodeWF v → offOf v + lenOf v ≤ pos →
    ElemsWF (offOf v) pos' elems ∧ pos + 1 ≤ pos' ∧ pos' + rest.length = pos + cs.length

theorem parse_sound : ∀ f : Nat,
    ValOk f ∧ ObjOk f ∧ ArrOk f ∧ MemOk f ∧ MemSepOk f ∧ ElOk f ∧ ElSepOk f := by
  intro f
  induction f with
  | zero =>
    refine ⟨?_, ?_, ?_, ?_, ?_, ?_, ?_⟩
    · intro cs pos n rest pos' h
      rw [show parseVal 0 cs pos = none from rfl] at h
      exact absurd h (by simp)
    · intro cs w2 pos n rest pos' h
      rw [show parseObjBody 0 cs w2 pos = none from rfl] at h
      exact absurd h (by simp)
    · intro cs w2 pos n rest pos' h
      rw [show parseArrBody 0 cs w2 pos = none from rfl] at h
      exact absurd h (by simp)
    · intro cs pos props rest pos' h
      rw [show parseMembers 0 cs pos = none from rfl] at h
      exact absurd h (by simp)
    · intro key v cs pos props rest pos' h
      rw [show parseMemberSep 0 key v cs pos = none from rfl] at h
      exact absurd h (by simp)
    · intro cs pos elems rest pos' h
      rw [show parseElems 0 cs pos = none from rfl] at h
      exact absurd h (by simp)
    · intro v cs pos elems rest pos' h
      rw [show parseElemSep 0 v cs pos = none from rfl] at h
      exact absurd h (by simp)
  | succ f ih =>
    obtain ⟨ihV, ihO, ihA, ihM, ihMS, ihE, ihES⟩ := ih
    have hval : ValOk (f + 1) := by
      intro cs pos n rest pos' h
      cases cs with
      | nil =>
        rw [show parseVal (f + 1) [] pos = none from rfl] at h
        exact absurd h (by simp)
      | cons c r =>
        rw [parseVal] at h
        by_cases hob : c = '{'
        · rw [if_pos hob] at h
          obtain ⟨h1, h2, h3, h4⟩ := ihO _ _ _ _ _ _ h
          have hws := skipWs_consumes r
          refine ⟨h1, h2, h3, ?_⟩
          simp only [List.length_cons]
          omega
        · rw [if_neg hob] at h
          by_cases hab : c = '['
          · rw [if_pos hab] at h
            obtain ⟨h1, h2, h3, h4⟩ := ihA _ _ _ _ _ _ h
            have hws := skipWs_consumes r
            refine ⟨h1, h2, h3, ?_⟩
            simp only [List.length_cons]
            omega
          · rw [if_neg hab] at h
            by_cases hq : c = '"'
            · rw [if_pos hq] at h
              rcases hs : parseStrAux (r.length + 1) r with _ | ⟨⟨kv, r1, kk⟩⟩
              · rw [hs] at h
                exact absurd h (by simp)
              · rw [hs] at h
                simp only [Option.map_some', Option.some.injEq, Prod.mk.injEq] at h
                obtain ⟨hn, hrest, hpos⟩ := h
                subst hn; subst hrest; subst hpos
                obtain ⟨hk1, hk2⟩ := parseStrAux_consumes hs
                refine ⟨rfl, ?_, ?_, ?_⟩
                · show 1 ≤ kk + 1
                  omega
                · show pos + kk + 1 = pos + (kk + 1)
                  omega
                · simp only [List.length_cons]
                  omega
            · rw [if_neg hq] at h
              by_cases ht : c = 't'
              · rw [if_pos ht] at h
                by_cases htk : r.take 3 = "rue".data
                · rw [if_pos htk] at h
                  simp only [Option.some.injEq, Prod.mk.injEq] at h
                  obtain ⟨hn, hrest, hpos⟩ := h
                  subst hn; subst hrest; subst hpos
                  have hlen : (r.take 3).length = 3 := by rw [htk]; rfl
                  rw [List.length_take] at hlen
                  refine ⟨rfl, by show 1 ≤ 4; omega, rfl, ?_⟩
                  simp only [List.length_drop, List.length_cons]
                  omega
                · rw [if_neg htk] at h
                  exact absurd h (by simp)
              · rw [if_neg ht] at h
                by_cases hf : c = 'f'
                · rw [if_pos hf] at h
                  by_cases htk : r.take 4 = "alse".data
                  · rw [if_pos htk] at h
                    simp only [Option.some.injEq, Prod.mk.injEq] at h
                    obtain ⟨hn, hrest, hpos⟩ := h
                    subst hn; subst hrest; subst hpos
                    have hlen : (r.take 4).length = 4 := by rw [htk]; rfl
                    rw [List.length_take] at hlen
                    refine ⟨rfl, by show 1 ≤ 5; omega, rfl, ?_⟩
                    simp only [List.length_drop, List.length_cons]
                    omega
                  · rw [if_neg htk] at h
                    exact absurd h (by simp)
                · rw [if_neg hf] at h
                  by_cases hnl : c = 'n'
                  · rw [if_pos hnl] at h
                    by_cases htk : r.take 3 = "ull".data
                    · rw [if_pos htk] at h
                      simp only [Option.some.injEq, Prod.mk.injEq] at h
                      obtain ⟨hn, hrest, hpos⟩ := h
                      subst hn; subst hrest; subst hpos
                      have hlen : (r.take 3).length = 3 := by rw [htk]; rfl
                      rw [List.length_take] at hlen
                      refine ⟨rfl, by show 1 ≤ 4; omega, rfl, ?_⟩
                      simp only [List.length_drop, List.length_cons]
                      omega
                    · rw [if_neg htk] at h
                      exact absurd h (by simp)
                  · rw [if_neg hnl] at h
                    exact parseNum_sound h
    have hobj : ObjOk (f + 1) := by
      intro cs w2 pos n rest pos' h
      cases cs with
      | nil =>
        rw [show parseObjBody (f + 1) [] w2 pos = none from rfl] at h
        exact absurd h (by simp)
      | cons c2 r2 =>
        rw [parseObjBody] at h
        by_cases hcl : c2 = '}'
        · rw [if_pos hcl] at h
          simp only [Option.some.injEq, Prod.mk.injEq] at h
          obtain ⟨hn, hrest, hpos⟩ := h
          subst hn; subst hrest; subst hpos
          refine ⟨rfl, ?_, ?_, ?_⟩
          · rw [NodeWF]
            refine ⟨by omega, ?_⟩
            rw [PropsWF]
            omega
          · show pos + w2 + 2 = pos + (w2 + 2)
            omega
          · simp only [List.length_cons]
            omega
        · rw [if_neg hcl] at h
          rcases hm : parseMembers f (c2 :: r2) (pos + 1 + w2) with _ | ⟨⟨props, restm, posm⟩⟩
          · rw [hm] at h
            exact absurd h (by simp)
          · rw [hm] at h
            simp only [Option.map_some', Option.some.injEq, Prod.mk.injEq] at h
            obtain ⟨hn, hrest, hpos⟩ := h
            subst hn; subst hrest; subst hpos
            obtain ⟨hw, hge, hcons⟩ := ihM _ _ _ _ _ hm
            have hpm : pos + (posm - pos) = posm := by omega
            refine ⟨rfl, ?_, ?_, ?_⟩
            · rw [NodeWF]
              refine ⟨by omega, ?_⟩
              rw [hpm]
              exact PropsWF_mono props (by omega) (Nat.le_refl _) hw
            · show posm = pos + (posm - pos)
              omega
            · simp only [List.length_cons] at *
              omega
    have harr : ArrOk (f + 1) := by
      intro cs w2 pos n rest pos' h
      cases cs with
      | nil =>
        rw [show parseArrBody (f + 1) [] w2 pos = none from rfl] at h
        exact absurd h (by simp)
      | cons c2 r2 =>
        rw [parseArrBody] at h
        by_cases hcl : c2 = ']'
        · rw [if_pos hcl] at h
          simp only [Option.some.injEq, Prod.mk.injEq] at h
          obtain ⟨hn, hrest, hpos⟩ := h
          subst hn; subst hrest; subst hpos
          refine ⟨rfl, ?_, ?_, ?_⟩
          · rw [NodeWF]
            refine ⟨by omega, ?_⟩
            rw [ElemsWF]
            omega
          · show pos + w2 + 2 = pos + (w2 + 2)
            omega
          · simp only [List.length_cons]
            omega
        · rw [if_neg hcl] at h
          rcases hm : parseElems f (c2 :: r2) (pos + 1 + w2) with _ | ⟨⟨elems, restm, posm⟩⟩
          · rw [hm] at h
            exact absurd h (by simp)
          · rw [hm] at h
            simp only [Option.map_some', Option.some.injEq, Prod.mk.injEq] at h
            obtain ⟨hn, hrest, hpos⟩ := h
            subst hn; subst hrest; subst hpos
            obtain ⟨hw, hge, hcons⟩ := ihE _ _ _ _ _ hm
            have hpm : pos + (posm - pos) = posm := by omega
            refine ⟨rfl, ?_, ?_, ?_⟩
            · rw [NodeWF]
              refine ⟨by omega, ?_⟩
              rw [hpm]
              exact ElemsWF_mono elems (by omega) (Nat.le_refl _) hw
            · show posm = pos + (posm - pos)
              omega
            · simp only [List.length_cons] at *
              omega
    have hmem : MemOk (f + 1) := by
      intro cs pos props rest pos' h
      cases cs with
      | nil =>
        rw [show parseMembers (f + 1) [] pos = none from rfl] at h
        exact absurd h (by simp)
      | cons c r =>
        rw [parseMembers] at h
        by_cases hq : c = '"'
        · rw [if_pos hq] at h
          rcases hs : parseStrAux (r.length + 1) r with _ | ⟨⟨key, r1, kk⟩⟩
          · rw [hs] at h
            exact absurd h (by simp)
          · rw [hs] at h
            simp only [Option.some_bind] at h
            rcases hx : expectChar ':' (skipWs r1).1 with _ | r3
            · rw [hx] at h
              exact absurd h (by simp)
            · rw [hx] at h
              simp only [Option.some_bind] at h
              rcases hv : parseVal f (skipWs r3).1
                  (pos + 1 + kk + (skipWs r1).2 + 1 + (skipWs r3).2)
                  with _ | ⟨⟨v, restv, posv'⟩⟩
              · rw [hv] at h
                exact absurd h (by simp)
              · rw [hv] at h
                simp only [Option.some_bind] at h
                obtain ⟨hvo, hvw, hvp, hvc⟩ := ihV _ _ _ _ _ hv
                obtain ⟨hpw, hge, hcons⟩ := ihMS _ _ _ _ _ _ _ h hvw (by omega)
                obtain ⟨hk1, hk2⟩ := parseStrAux_consumes hs
                have hws1 := skipWs_consumes r1
                have hxe := expectChar_eq hx
                have hxl : (skipWs r1).1.length = r3.length + 1 := by
                  rw [hxe]; rfl
                have hws2 := skipWs_consumes r3
                have hws3 := skipWs_consumes restv
                rw [hvo] at hpw
                refine ⟨PropsWF_mono props (by omega) (Nat.le_refl _) hpw, by omega, ?_⟩
                simp only [List.length_cons]
                omega
        · rw [if_neg hq] at h
          exact absurd h (by simp)
    have hmsep : MemSepOk (f + 1) := by
      intro key v cs pos props rest pos' h hvw hvle
      cases cs with
      | nil =>
        rw [show parseMemberSep (f + 1) key v [] pos = none from rfl] at h
        exact absurd h (by simp)
      | cons c7 r7 =>
        rw [parseMemberSep] at h
        by_cases hcm : c7 = ','
        · rw [if_pos hcm] at h
          rcases hm : parseMembers f (skipWs r7).1 (pos + 1 + (skipWs r7).2)
              with _ | ⟨⟨props1, restm, posm⟩⟩
          · rw [hm] at h
            exact absurd h (by simp)
          · rw [hm] at h
            simp only [Option.map_some', Option.some.injEq, Prod.mk.injEq] at h
            obtain ⟨hp, hrest, hpos⟩ := h
            subst hp; subst hrest; subst hpos
            obtain ⟨hpw, hge, hcons⟩ := ihM _ _ _ _ _ hm
            have hws := skipWs_consumes r7
            refine ⟨?_, by omega, ?_⟩
            · rw [PropsWF]
              exact ⟨Nat.le_refl _, hvw,
                PropsWF_mono props1 (by omega) (Nat.le_refl _) hpw⟩
            · simp only [List.length_cons]
              omega
        · rw [if_neg hcm] at h
          by_cases hcb : c7 = '}'
          · rw [if_pos hcb] at h
            simp only [Option.some.injEq, Prod.mk.injEq] at h
            obtain ⟨hp, hrest, hpos⟩ := h
            subst hp; subst hrest; subst hpos
            refine ⟨?_, by omega, by simp only [List.length_cons]; omega⟩
            rw [PropsWF]
            refine ⟨Nat.le_refl _, hvw, ?_⟩
            rw [PropsWF]
            omega
          · rw [if_neg hcb] at h
            exact absurd h (by simp)
    have helems : ElOk (f + 1) := by
      intro cs pos elems rest pos' h
      rw [parseElems] at h
      rcases hv : parseVal f cs pos with _ | ⟨⟨v, restv, posv'⟩⟩
      · rw [hv] at h
        exact absurd h (by simp)
      · rw [hv] at h
        simp only [Option.some_bind] at h
        obtain ⟨hvo, hvw, hvp, hvc⟩ := ihV _ _ _ _ _ hv
        obtain ⟨hew, hge, hcons⟩ := ihES _ _ _ _ _ _ h hvw (by omega)
        have hws := skipWs_consumes restv
        refine ⟨?_, by omega, by omega⟩
        rw [← hvo]
        exact hew
    have hesep : ElSepOk (f + 1) := by
      intro v cs pos elems rest pos' h hvw hvle
      cases cs with
      | nil =>
        rw [show parseElemSep (f + 1) v [] pos = none from rfl] at h
        exact absurd h (by simp)
      | cons c3 r3 =>
        rw [parseElemSep] at h
        by_cases hcm : c3 = ','
        · rw [if_pos hcm] at h
          rcases hm : parseElems f (skipWs r3).1 (pos + 1 + (skipWs r3).2)
              with _ | ⟨⟨elems1, restm, posm⟩⟩
          · rw [hm] at h
            exact absurd h (by simp)
          · rw [hm] at h
            simp only [Option.map_some', Option.some.injEq, Prod.mk.injEq] at h
            obtain ⟨hp, hrest, hpos⟩ := h
            subst hp; subst hrest; subst hpos
            obtain ⟨hew, hge, hcons⟩ := ihE _ _ _ _ _ hm
            have hws := skipWs_consumes r3
            refine ⟨?_, by omega, ?_⟩
            · rw [ElemsWF]
              exact ⟨Nat.le_refl _, hvw,
                ElemsWF_mono elems1 (by omega) (Nat.le_refl _) hew⟩
            · simp only [List.length_cons]
              omega
        · rw [if_neg hcm] at h
          by_cases hcb : c3 = ']'
          · rw [if_pos hcb] at h
            simp only [Option.some.injEq, Prod.mk.injEq] at h
            obtain ⟨hp, hrest, hpos⟩ := h
            subst hp; subst hrest; subst hpos
            refine ⟨?_, by omega, by simp only [List.length_cons]; omega⟩
            rw [ElemsWF]
            refine ⟨Nat.le_refl _, hvw, ?_⟩
            rw [ElemsWF]
            omega
          · rw [if_neg hcb] at h
            exact absurd h (by simp)
    exact ⟨hval, hobj, harr, hmem, hmsep, helems, hesep⟩

/-- Soundness of the whole-document parse: a successful `parseDoc` yields a
well-formed tree placed after the leading whitespace, fully inside the text. -/
theorem parseDoc_sound {cs : List Char} {t : JNode} (h : parseDoc cs = some t) :
    NodeWF t ∧ offOf t = (skipWs cs).2 ∧ offOf t + lenOf t ≤ cs.length := by
  rw [parseDoc] at h
  rcases hv : parseVal (4 * cs.length + 4) (skipWs cs).1 (skipWs cs).2
      with _ | ⟨⟨n, rest, pos'⟩⟩
  · rw [hv] at h
    exact absurd h (by simp)
  · rw [hv] at h
    simp only [Option.some_bind] at h
    obtain ⟨ho, hw, hp, hc⟩ := (parse_sound _).1 _ _ _ _ _ hv
    have hws := skipWs_consumes cs
    by_cases hemp : (skipWs rest).1 = []
    · rw [if_pos hemp] at h
      simp only [Option.some.injEq] at h
      subst h
      exact ⟨hw, ho, by omega⟩
    · rw [if_neg hemp] at h
      exact absurd h (by simp)

/-! ## Leaf spans

`collectLeafPaths` visits the document left to right, so the collected
leaves occupy disjoint, strictly increasing byte ranges inside the span of
their tree.  `SpanChain lo hi l` says the leaf list `l` chains between the
bounds `lo` and `hi`. -/

def SpanChain : Nat → Nat → List (List Char × JNode) → Prop
  | lo, hi, [] => lo ≤ hi
  | lo, hi, (_, n) :: rest => lo ≤ offOf n ∧ 1 ≤ lenOf n ∧ SpanChain (offOf n + lenOf n) hi rest

theorem SpanChain_mono : ∀ (l : List (List Char × JNode)) {lo hi lo' hi' : Nat},
    lo' ≤ lo → hi ≤ hi' → SpanChain lo hi l → SpanChain lo' hi' l
  | [], _, _, _, _, h1, h2, h => by
    rw [SpanChain] at *
    omega
  | (k, n) :: rest, _, _, _, _, h1, h2, h => by
    rw [SpanChain] at *
    exact ⟨Nat.le_trans h1 h.1, h.2.1, SpanChain_mono rest (Nat.le_refl _) h2 h.2.2⟩

theorem SpanChain_append : ∀ (xs ys : List (List Char × JNode)) {lo mid hi : Nat},
    SpanChain lo mid xs → SpanChain mid hi ys → SpanChain lo hi (xs ++ ys)
  | [], ys, _, _, _, hx, hy => by
    rw [SpanChain] at hx
    exact SpanChain_mono ys hx (Nat.le_refl _) hy
  | (k, n) :: xs, ys, _, _, _, hx, hy => by
    rw [SpanChain] at hx
    rw [List.cons_append, SpanChain]
    exact ⟨hx.1, hx.2.1, SpanChain_append xs ys hx.2.2 hy⟩

/-- The spans of the collected leaves chain inside the node's span. -/
theorem collect_spans : ∀ t : JNode, NodeWF t →
    ∀ cur, SpanChain (offOf t) (offOf t + lenOf t) (collectLeafPaths t cur) := by
  apply jnode_strong_ind (fun t => NodeWF t →
    ∀ cur, SpanChain (offOf t) (offOf t + lenOf t) (collectLeafPaths t cur))
  intro t IH hwf cur
  cases t with
  | scalar o l =>
    rw [collectLeafPaths, SpanChain]
    show o ≤ o + l
    omega
  | obj o l props =>
    rw [NodeWF] at hwf
    rw [collectLeafPaths]
    have hsz' : ∀ kv ∈ props, sizeOf kv.2 < sizeOf (JNode.obj o l props) := by
      intro kv hkv
      obtain ⟨k, v⟩ := kv
      exact sizeOf_val_lt_obj hkv
    have inner : ∀ props' : List (List Char × JNode),
        (∀ kv ∈ props', sizeOf kv.2 < sizeOf (JNode.obj o l props)) →
        ∀ lo hi, PropsWF lo hi props' → ∀ cur',
          SpanChain lo hi (collectProps props' cur') := by
      intro props'
      induction props' with
      | nil =>
        intro _ lo hi hp cur'
        rw [collectProps, SpanChain]
        rw [PropsWF] at hp
        exact hp
      | cons kv rest ihp =>
        intro hsz lo hi hp cur'
        obtain ⟨k, v⟩ := kv
        rw [PropsWF] at hp
        rw [collectProps]
        have hrest := ihp (fun kv hkv => hsz kv (List.mem_cons_of_mem _ hkv))
          _ _ hp.2.2 cur'
        cases v with
        | scalar vo vl =>
          have h1 := hp.2.1
          rw [NodeWF] at h1
          rw [isContainer, bool_ite_false, List.singleton_append, SpanChain]
          exact ⟨hp.1, h1, hrest⟩
        | obj vo vl vprops =>
          rw [isContainer, bool_ite_true]
          refine SpanChain_append _ _ ?_ hrest
          exact SpanChain_mono _ hp.1 (Nat.le_refl _)
            (IH _ (hsz (k, .obj vo vl vprops) (List.mem_cons_self _ _)) hp.2.1 _)
        | arr vo vl velems =>
          rw [isContainer, bool_ite_true]
          refine SpanChain_append _ _ ?_ hrest
          exact SpanChain_mono _ hp.1 (Nat.le_refl _)
            (IH _ (hsz (k, .arr vo vl velems) (List.mem_cons_self _ _)) hp.2.1 _)
    show SpanChain o (o + l) (collectProps props cur)
    exact SpanChain_mono _ (by omega) (Nat.le_refl _)
      (inner props hsz' (o + 1) (o + l) hwf.2 cur)
  | arr o l elems =>
    rw [NodeWF] at hwf
    rw [collectLeafPaths]
    have hsz' : ∀ e ∈ elems, sizeOf e < sizeOf (JNode.arr o l elems) := by
      intro e he
      exact sizeOf_elem_lt_arr he
    have inner : ∀ elems' : List JNode,
        (∀ e ∈ elems', sizeOf e < sizeOf (JNode.arr o l elems)) →
        ∀ lo hi, ElemsWF lo hi elems' → ∀ cur' i,
          SpanChain lo hi (collectElems elems' cur' i) := by
      intro elems'
      induction elems' with
      | nil =>
        intro _ lo hi hp cur' i
        rw [collectElems, SpanChain]
        rw [ElemsWF] at hp
        exact hp
      | cons v rest ihe =>
        intro hsz lo hi hp cur' i
        rw [ElemsWF] at hp
        rw [collectElems]
        have hrest := ihe (fun e he => hsz e (List.mem_cons_of_mem _ he))
          _ _ hp.2.2 cur' (i + 1)
        cases v with
        | scalar vo vl =>
          have h1 := hp.2.1
          rw [NodeWF] at h1
          rw [isContainer, bool_ite_false, List.singleton_append, SpanChain]
          exact ⟨hp.1, h1, hrest⟩
        | obj vo vl vprops =>
          rw [isContainer, bool_ite_true]
          refine SpanChain_append _ _ ?_ hrest
          exact SpanChain_mono _ hp.1 (Nat.le_refl _)
            (IH _ (hsz (.obj vo vl vprops) (List.mem_cons_self _ _)) hp.2.1 _)
        | arr vo vl velems =>
          rw [isContainer, bool_ite_true]
          refine SpanChain_append _ _ ?_ hrest
          exact SpanChain_mono _ hp.1 (Nat.le_refl _)
            (IH _ (hsz (.arr vo vl velems) (List.mem_cons_self _ _)) hp.2.1 _)
    show SpanChain o (o + l) (collectElems elems cur 0)
    exact SpanChain_mono _ (by omega) (Nat.le_refl _)
      (inner elems hsz' (o + 1) (o + l) hwf.2 cur 0)

theorem SpanChain_mem_lo (l : List (List Char × JNode)) : ∀ {lo hi : Nat},
    SpanChain lo hi l → ∀ x ∈ l, lo ≤ offOf x.2 := by
  induction l with
  | nil =>
    intro lo hi h x hx
    exact absurd hx (List.not_mem_nil _)
  | cons y rest ih =>
    intro lo hi h x hx
    obtain ⟨k, n⟩ := y
    rw [SpanChain] at h
    rcases List.mem_cons.mp hx with hx | hx
    · rw [hx]
      exact h.1
    · have := ih h.2.2 x hx
      omega

theorem SpanChain_mem_len (l : List (List Char × JNode)) : ∀ {lo hi : Nat},
    SpanChain lo hi l → ∀ x ∈ l, 1 ≤ lenOf x.2 := by
  induction l with
  | nil =>
    intro lo hi h x hx
    exact absurd hx (List.not_mem_nil _)
  | cons y rest ih =>
    intro lo hi h x hx
    obtain ⟨k, n⟩ := y
    rw [SpanChain] at h
    rcases List.mem_cons.mp hx with hx | hx
    · rw [hx]
      exact h.2.1
    · exact ih h.2.2 x hx

theorem SpanChain_pairwise (l : List (List Char × JNode)) : ∀ {lo hi : Nat},
    SpanChain lo hi l → l.Pairwise (fun a b => offOf a.2 + lenOf a.2 ≤ offOf b.2) := by
  induction l with
  | nil => intro lo hi h; exact List.Pairwise.nil
  | cons y rest ih =>
    intro lo hi h
    obtain ⟨k, n⟩ := y
    rw [SpanChain] at h
    exact List.Pairwise.cons (SpanChain_mem_lo rest h.2.2) (ih h.2.2)

theorem SpanChain_sublist {l' l : List (List Char × JNode)} (hs : l'.Sublist l) :
    ∀ {lo hi : Nat}, SpanChain lo hi l → SpanChain lo hi l' := by
  induction hs with
  | slnil => intro lo hi h; exact h
  | cons y hs ih =>
    intro lo hi h
    obtain ⟨k, n⟩ := y
    rw [SpanChain] at h
    obtain ⟨h1, h2, h3⟩ := h
    exact SpanChain_mono _ (by omega) (Nat.le_refl _) (ih h3)
  | cons₂ y hs ih =>
    intro lo hi h
    obtain ⟨k, n⟩ := y
    rw [SpanChain] at h ⊢
    exact ⟨h.1, h.2.1, ih h.2.2⟩

/-! ### Bare numeric span chains -/

/-- A chain of `(start, stop)` byte ranges, increasing between `pos` and `hi`. -/
def SpChain : Nat → Nat → List (Nat × Nat) → Prop
  | pos, hi, [] => pos ≤ hi
  | pos, hi, (a, b) :: rest => pos ≤ a ∧ a ≤ b ∧ SpChain b hi rest

theorem SpChain_le (l : List (Nat × Nat)) : ∀ {lo hi : Nat}, SpChain lo hi l → lo ≤ hi := by
  induction l with
  | nil =>
    intro lo hi h
    rw [SpChain] at h
    exact h
  | cons s rest ih =>
    intro lo hi h
    obtain ⟨a, b⟩ := s
    rw [SpChain] at h
    have := ih h.2.2
    omega

theorem SpChain_mono : ∀ (l : List (Nat × Nat)) {lo hi lo' hi' : Nat},
    lo' ≤ lo → hi ≤ hi' → SpChain lo hi l → SpChain lo' hi' l
  | [], _, _, _, _, h1, h2, h => by
    rw [SpChain] at *
    omega
  | (a, b) :: rest, _, _, _, _, h1, h2, h => by
    rw [SpChain] at *
    exact ⟨Nat.le_trans h1 h.1, h.2.1, SpChain_mono rest (Nat.le_refl _) h2 h.2.2⟩

theorem SpChain_sublist {l' l : List (Nat × Nat)} (hs : l'.Sublist l) :
    ∀ {lo hi : Nat}, SpChain lo hi l → SpChain lo hi l' := by
  induction hs with
  | slnil => intro lo hi h; exact h
  | cons y hs ih =>
    intro lo hi h
    obtain ⟨a, b⟩ := y
    rw [SpChain] at h
    obtain ⟨h1, h2, h3⟩ := h
    exact SpChain_mono _ (by omega) (Nat.le_refl _) (ih h3)
  | cons₂ y hs ih =>
    intro lo hi h
    obtain ⟨a, b⟩ := y
    rw [SpChain] at h ⊢
    exact ⟨h.1, h.2.1, ih h.2.2⟩

theorem SpChain_mem_lo (l : List (Nat × Nat)) : ∀ {lo hi : Nat},
    SpChain lo hi l → ∀ x ∈ l, lo ≤ x.1 := by
  induction l with
  | nil =>
    intro lo hi h x hx
    exact absurd hx (List.not_mem_nil _)
  | cons y rest ih =>
    intro lo hi h x hx
    obtain ⟨a, b⟩ := y
    rw [SpChain] at h
    rcases List.mem_cons.mp hx with hx | hx
    · rw [hx]
      exact h.1
    · have := ih h.2.2 x hx
      omega

theorem SpChain_pairwise_lt (l : List (Nat × Nat)) : ∀ {lo hi : Nat},
    SpChain lo hi l → (∀ x ∈ l, x.1 < x.2) → l.Pairwise (fun x y => x.1 < y.1) := by
  induction l with
  | nil => intro lo hi h hlt; exact List.Pairwise.nil
  | cons y rest ih =>
    intro lo hi h hlt
    obtain ⟨a, b⟩ := y
    rw [SpChain] at h
    refine List.Pairwise.cons ?_ (ih h.2.2 (fun x hx => hlt x (List.mem_cons_of_mem _ hx)))
    intro x hx
    have h1 := SpChain_mem_lo rest h.2.2 x hx
    have h2 := hlt (a, b) (List.mem_cons_self _ _)
    simp only at h2
    omega

theorem spanChain_spChain (l : List (List Char × JNode)) : ∀ {lo hi : Nat},
    SpanChain lo hi l →
    SpChain lo hi (l.map (fun x => (offOf x.2, offOf x.2 + lenOf x.2))) := by
  induction l with
  | nil =>
    intro lo hi h
    rw [SpanChain] at h
    rw [List.map_nil, SpChain]
    exact h
  | cons y rest ih =>
    intro lo hi h
    obtain ⟨k, n⟩ := y
    rw [SpanChain] at h
    rw [List.map_cons, SpChain]
    exact ⟨h.1, by omega, ih h.2.2⟩

/-! ### Slice algebra and document reconstruction -/

theorem jsSlice_append (c : List Char) {a b d : Nat} (h1 : a ≤ b) (h2 : b ≤ d) :
    jsSlice c a b ++ jsSlice c b d = jsSlice c a d := by
  rw [jsSlice, jsSlice, jsSlice]
  have hdd : c.drop b = (c.drop a).drop (b - a) := by
    rw [List.drop_drop]
    congr 1
    omega
  have hba : d - a = (b - a) + (d - b) := by omega
  rw [hba, List.take_add, hdd]

theorem jsSlice_drop (c : List Char) {a b : Nat} (h : a ≤ b) :
    jsSlice c a b ++ c.drop b = c.drop a := by
  rw [jsSlice]
  have hdd : c.drop b = (c.drop a).drop (b - a) := by
    rw [List.drop_drop]
    congr 1
    omega
  rw [hdd, List.take_append_drop]

theorem jsSlice_to_length (c : List Char) (a : Nat) : jsSlice c a c.length = c.drop a := by
  rw [jsSlice]
  apply List.take_of_length_le
  rw [List.length_drop]

theorem take_jsSlice (c : List Char) {a b : Nat} (h : a ≤ b) :
    c.take a ++ jsSlice c a b = c.take b := by
  rw [jsSlice, ← List.take_add]
  congr 1
  omega

/-- The gap texts of a document around a span list: the text before the
first span, between consecutive spans, and after the last span. -/
def gapsAux (content : List Char) : Nat → List (Nat × Nat) → List (List Char)
  | pos, [] => [jsSlice content pos content.length]
  | pos, (a, b) :: rest => jsSlice content pos a :: gapsAux content b rest

/-- The leaf spans of a tree, in collection order, as `(start, stop)` pairs. -/
def leafSpans (t : JNode) : List (Nat × Nat) :=
  (collectLeafPaths t []).map (fun pl => (offOf pl.2, offOf pl.2 + lenOf pl.2))

/-- The text of a document outside its leaf values: everything
`extractPatches`/`applyPatches` can never touch. -/
def docGaps (content : List Char) (t : JNode) : List (List Char) :=
  gapsAux content 0 (leafSpans t)

/-- `interleave [g0, g1, ..., gn] [v1, ..., vn] = g0 ++ v1 ++ g1 ++ ... ++ vn ++ gn`. -/
def interleave : List (List Char) → List (List Char) → List Char
  | [], _ => []
  | g :: _, [] => g
  | g :: gs, v :: vs => g ++ v ++ interleave gs vs

/-- Interleaving a document's gaps with its own slices reproduces the text. -/
theorem interleave_reconstruct (c : List Char) :
    ∀ (spans : List (Nat × Nat)) (pos : Nat), SpChain pos c.length spans →
    interleave (gapsAux c pos spans) (spans.map (fun s => jsSlice c s.1 s.2)) = c.drop pos := by
  intro spans
  induction spans with
  | nil =>
    intro pos h
    rw [gapsAux, List.map_nil, interleave, jsSlice_to_length]
  | cons s rest ih =>
    intro pos h
    obtain ⟨a, b⟩ := s
    rw [SpChain] at h
    simp only [gapsAux, List.map_cons, interleave]
    rw [ih b h.2.2, List.append_assoc, jsSlice_drop c h.2.1, jsSlice_drop c h.1]

/-- An initial gap merges into the first gap of a later chain. -/
theorem gapsAux_shift (c : List Char) {pos b : Nat} (hpb : pos ≤ b) :
    ∀ (spans : List (Nat × Nat)) (vs : List (List Char)), SpChain b c.length spans →
    jsSlice c pos b ++ interleave (gapsAux c b spans) vs
      = interleave (gapsAux c pos spans) vs := by
  intro spans vs h
  cases spans with
  | nil =>
    rw [SpChain] at h
    rw [gapsAux, gapsAux, ← jsSlice_append c hpb h]
    cases vs with
    | nil => simp only [interleave]
    | cons v vs' =>
      simp only [interleave, List.append_assoc]
  | cons s rest =>
    obtain ⟨a2, b2⟩ := s
    rw [SpChain] at h
    rw [gapsAux, gapsAux, ← jsSlice_append c hpb h.1]
    cases vs with
    | nil => simp only [interleave]
    | cons v vs' =>
      simp only [interleave, List.append_assoc]

/-- Dropping the no-op entries (whose replacement equals the original slice)
from an interleaving changes nothing. -/
theorem interleave_filter (c : List Char) (keep : (Nat × Nat) × List Char → Bool) :
    ∀ (l : List ((Nat × Nat) × List Char)) (pos : Nat),
    SpChain pos c.length (l.map Prod.fst) →
    (∀ x ∈ l, keep x = false → x.2 = jsSlice c x.1.1 x.1.2) →
    interleave (gapsAux c pos ((l.filter keep).map Prod.fst)) ((l.filter keep).map Prod.snd)
      = interleave (gapsAux c pos (l.map Prod.fst)) (l.map Prod.snd) := by
  intro l
  induction l with
  | nil =>
    intro pos h hk
    rfl
  | cons x rest ih =>
    intro pos h hk
    obtain ⟨⟨a, b⟩, v⟩ := x
    simp only [List.map_cons] at h
    rw [SpChain] at h
    rw [List.filter_cons]
    cases hkx : keep ((a, b), v) with
    | true =>
      rw [if_pos rfl]
      simp only [List.map_cons, gapsAux, interleave]
      rw [ih b h.2.2 (fun y hy hky => hk y (List.mem_cons_of_mem _ hy) hky)]
    | false =>
      rw [if_neg (by simp)]
      have hv : v = jsSlice c a b := hk _ (List.mem_cons_self _ _) hkx
      simp only [List.map_cons, gapsAux, interleave]
      rw [ih pos (SpChain_mono _ (Nat.le_trans h.1 h.2.1) (Nat.le_refl _) h.2.2)
          (fun y hy hky => hk y (List.mem_cons_of_mem _ hy) hky), hv,
        ← gapsAux_shift c (Nat.le_trans h.1 h.2.1) (rest.map Prod.fst) (rest.map Prod.snd)
          h.2.2, jsSlice_append c h.1 h.2.1]

/-- The descending splice fold, executed right to left over an ascending
range chain, replaces each range by its patch value and keeps the gaps. -/
theorem foldr_splice (c : List Char) :
    ∀ (items : List (PatchRecord × Range)) (pos : Nat),
    SpChain pos c.length (items.map (fun pr => (pr.2.start, pr.2.stop))) →
    items.foldr (fun pr acc => spliceStep acc pr) c
      = c.take pos ++
        interleave (gapsAux c pos (items.map (fun pr => (pr.2.start, pr.2.stop))))
          (items.map (fun pr => pr.1.value.data)) := by
  intro items
  induction items with
  | nil =>
    intro pos h
    rw [List.map_nil, List.map_nil, List.foldr_nil, gapsAux, interleave, jsSlice_to_length,
      List.take_append_drop]
  | cons pr items ih =>
    intro pos h
    obtain ⟨p, r⟩ := pr
    simp only [List.map_cons] at h
    rw [SpChain] at h
    simp only [List.map_cons, List.foldr_cons, gapsAux, interleave]
    rw [ih r.stop h.2.2, spliceStep]
    have hstople : r.stop ≤ c.length := SpChain_le _ h.2.2
    have hlen1 : (List.take r.stop c).length = r.stop := by
      rw [List.length_take]
      omega
    have h1 : ∀ X : List Char, (List.take r.stop c ++ X).take r.start = c.take r.start := by
      intro X
      rw [List.take_append_eq_append_take, hlen1, List.take_take,
        Nat.min_eq_left h.2.1, Nat.sub_eq_zero_of_le h.2.1, List.take_zero, List.append_nil]
    have h2 : ∀ X : List Char, (List.take r.stop c ++ X).drop r.stop = X := by
      intro X
      rw [List.drop_append_eq_append_drop, List.drop_eq_nil_of_le (by omega), hlen1,
        Nat.sub_self, List.drop_zero, List.nil_append]
    rw [h1, h2]
    simp only [← List.append_assoc]
    rw [take_jsSlice c h.1]

/-- On a list with strictly increasing start offsets, the descending sort is
exactly the reversal. -/
theorem sortDesc_eq_reverse (items : List (PatchRecord × Range))
    (h : items.Pairwise (fun a b => a.2.start < b.2.start)) :
    sortDesc items = items.reverse := by
  apply sorted_desc_nodup_unique
  · exact (sortDesc_perm items).trans (List.reverse_perm items).symm
  · exact sortDesc_sorted items
  · exact List.pairwise_reverse.mpr (h.imp Nat.le_of_lt)
  · have hlt : (items.map (fun x => x.2.start)).Pairwise (fun a b => a < b) :=
      List.pairwise_map.mpr h
    exact ((sortDesc_perm items).map _).symm.nodup (hlt.imp Nat.ne_of_lt)

/-! ### Extraction as a zip over baseline and target leaves -/

theorem zip_fst_eq : ∀ l₁ l₂ : List (List Char × JNode),
    l₁.map Prod.fst = l₂.map Prod.fst → ∀ x ∈ l₁.zip l₂, x.1.1 = x.2.1 := by
  intro l₁
  induction l₁ with
  | nil =>
    intro l₂ h x hx
    rw [List.zip_nil_left] at hx
    exact absurd hx (List.not_mem_nil _)
  | cons a rest ih =>
    intro l₂ h x hx
    cases l₂ with
    | nil =>
      rw [List.zip_nil_right] at hx
      exact absurd hx (List.not_mem_nil _)
    | cons b rest₂ =>
      rw [List.map_cons, List.map_cons, List.cons.injEq] at h
      rw [List.zip_cons_cons] at hx
      rcases List.mem_cons.mp hx with hx | hx
      · rw [hx]
        exact h.1
      · exact ih rest₂ h.2 x hx

/-- `extractPatches` on two parsed documents, with the parse results
substituted. -/
theorem extractPatches_eq {B T : String} {tb tt : JNode}
    (hB : parseDoc B.data = some tb) (hT : parseDoc T.data = some tt) :
    extractPatches B T = (collectLeafPaths tt []).filterMap (fun pl =>
      match getRangeForPointer (some tb) ⟨pl.1⟩ with
      | none => some ⟨⟨pl.1⟩, ⟨getNodeText T.data pl.2⟩⟩
      | some baseRange =>
        if jsSlice B.data baseRange.start baseRange.stop ≠ getNodeText T.data pl.2 then
          some ⟨⟨pl.1⟩, ⟨getNodeText T.data pl.2⟩⟩
        else none) := by
  rw [extractPatches, hB, hT]

theorem extractPatches_none {B T : String} (h : parseDoc B.data = none) :
    extractPatches B T = [] := by
  rw [extractPatches, h]

/-- Every patch the extraction loop emits carries the leaf's own path. -/
theorem filterMap_path_sublist (l : List (List Char × JNode))
    (g : (List Char × JNode) → Option PatchRecord)
    (hg : ∀ pl r, g pl = some r → r.path = ⟨pl.1⟩) :
    ((l.filterMap g).map (fun p => p.path)).Sublist
      (l.map (fun pl => (⟨pl.1⟩ : String))) := by
  induction l with
  | nil => exact List.Sublist.refl _
  | cons x rest ih =>
    rw [List.filterMap_cons, List.map_cons]
    cases hgx : g x with
    | none => exact ih.cons _
    | some r =>
      rw [List.map_cons, hg x r hgx]
      exact ih.cons₂ _

/-- On a pointer-safe, well-formed tree the collected leaf paths are
pairwise distinct: each path resolves to its own leaf's byte range, and the
ranges strictly increase along the collection. -/
theorem collect_fst_nodup {t : JNode} (hg : goodTree t = true) (hwf : NodeWF t) :
    ((collectLeafPaths t []).map Prod.fst).Nodup := by
  have hchain := collect_spans t hwf []
  have hpw := SpanChain_pairwise _ hchain
  have hlen := SpanChain_mem_len _ hchain
  have hne : (collectLeafPaths t []).Pairwise (fun a b => a.1 ≠ b.1) := by
    refine hpw.imp_of_mem ?_
    intro a b ha hb hle heq
    have h1 := getRange_of_collect hg (p := a.1) (n := a.2) (by simpa using ha)
    have h2 := getRange_of_collect hg (p := b.1) (n := b.2) (by simpa using hb)
    rw [heq, h2, Option.some.injEq, Range.mk.injEq] at h1
    have h3 := hlen a ha
    omega
  exact List.Pairwise.map _ (fun a b hab => hab) hne

/-! ### Path uniqueness from key separability alone

Extracted paths are rendered purely from key text and array indices, so
their pairwise distinctness needs less than pointer safety: it is enough
that every object key contains no `'/'` and is unique among its siblings.
Keys that JavaScript `Number()` accepts (digit strings, say) never merge
two paths, even though their own pointers fail to resolve. -/

mutual

/-- Every object key in the tree contains no `'/'` and is unique among its
siblings. -/
def sepTree : JNode → Bool
  | .scalar _ _ => true
  | .obj _ _ props => sepProps props
  | .arr _ _ elems => sepElems elems

def sepProps : List (List Char × JNode) → Bool
  | [] => true
  | (k, v) :: rest =>
    k.all (fun c => c ≠ '/') && !((rest.map Prod.fst).contains k) &&
      sepTree v && sepProps rest

def sepElems : List JNode → Bool
  | [] => true
  | v :: rest => sepTree v && sepElems rest

end

theorem sepProps_cons {k : List Char} {v : JNode} {rest : List (List Char × JNode)}
    (h : sepProps ((k, v) :: rest) = true) :
    (∀ c ∈ k, c ≠ '/') ∧ k ∉ rest.map Prod.fst ∧ sepTree v = true ∧
      sepProps rest = true := by
  rw [sepProps] at h
  simp only [Bool.and_eq_true, Bool.not_eq_true'] at h
  refine ⟨?_, ?_, h.1.2, h.2⟩
  · intro c hc
    exact of_decide_eq_true (List.all_eq_true.mp h.1.1.1 c hc)
  · have h2 := h.1.1.2
    simp only [List.elem_eq_mem, decide_eq_false_iff_not] at h2
    exact h2

theorem sepElems_cons {v : JNode} {rest : List JNode}
    (h : sepElems (v :: rest) = true) : sepTree v = true ∧ sepElems rest = true := by
  rw [sepElems, Bool.and_eq_true] at h
  exact h

theorem sepProps_key : ∀ {props : List (List Char × JNode)}, sepProps props = true →
    ∀ {k v}, (k, v) ∈ props → ∀ c ∈ k, c ≠ '/' := by
  intro props
  induction props with
  | nil =>
    intro _ k v hm
    exact absurd hm (List.not_mem_nil _)
  | cons kv rest ih =>
    intro h k v hm
    obtain ⟨k₀, v₀⟩ := kv
    obtain ⟨h1, -, -, h4⟩ := sepProps_cons h
    rcases List.mem_cons.mp hm with hm | hm
    · simp only [Prod.mk.injEq] at hm
      rw [hm.1]
      exact h1
    · exact ih h4 hm

/-- A rendered path splits as a slash-free first segment followed by a tail
that is empty or starts with `'/'`; two such decompositions agree on the
first segment. -/
theorem seg_append_inj : ∀ k k' r r' : List Char,
    (∀ c ∈ k, c ≠ '/') → (∀ c ∈ k', c ≠ '/') →
    (r = [] ∨ ∃ s, r = '/' :: s) → (r' = [] ∨ ∃ s, r' = '/' :: s) →
    k ++ r = k' ++ r' → k = k' := by
  intro k
  induction k with
  | nil =>
    intro k' r r' hk hk' hr hr' he
    cases k' with
    | nil => rfl
    | cons b k₀ =>
      exfalso
      rw [List.nil_append, List.cons_append] at he
      rcases hr with hr | ⟨s, hr⟩
      · rw [hr] at he
        exact absurd he (by simp)
      · rw [hr] at he
        rw [List.cons.injEq] at he
        exact hk' b (List.mem_cons_self _ _) he.1.symm
  | cons a k₀ ih =>
    intro k' r r' hk hk' hr hr' he
    cases k' with
    | nil =>
      exfalso
      rw [List.nil_append, List.cons_append] at he
      rcases hr' with hr' | ⟨s, hr'⟩
      · rw [hr'] at he
        exact absurd he (by simp)
      · rw [hr'] at he
        rw [List.cons.injEq] at he
        exact hk a (List.mem_cons_self _ _) he.1
    | cons b k₀' =>
      rw [List.cons_append, List.cons_append, List.cons.injEq] at he
      rw [he.1, ih k₀' r r' (fun c hc => hk c (List.mem_cons_of_mem _ hc))
        (fun c hc => hk' c (List.mem_cons_of_mem _ hc)) hr hr' he.2]

/-- Every path collected below a node extends the current path by at least
one `'/'`-led segment. -/
theorem collect_slash_prefix : ∀ t : JNode, ∀ cur p n,
    (p, n) ∈ collectLeafPaths t cur → ∃ s, p = cur ++ '/' :: s := by
  apply jnode_strong_ind (fun t => ∀ cur p n,
    (p, n) ∈ collectLeafPaths t cur → ∃ s, p = cur ++ '/' :: s)
  intro t IH cur p n hm
  cases t with
  | scalar o l =>
    rw [collectLeafPaths] at hm
    exact absurd hm (List.not_mem_nil _)
  | obj o l props =>
    rw [collectLeafPaths] at hm
    have hsz' : ∀ kv ∈ props, sizeOf kv.2 < sizeOf (JNode.obj o l props) := by
      intro kv hkv
      obtain ⟨k, v⟩ := kv
      exact sizeOf_val_lt_obj hkv
    have inner : ∀ props' : List (List Char × JNode),
        (∀ kv ∈ props', sizeOf kv.2 < sizeOf (JNode.obj o l props)) →
        ∀ cur' p' n', (p', n') ∈ collectProps props' cur' →
          ∃ s, p' = cur' ++ '/' :: s := by
      intro props'
      induction props' with
      | nil =>
        intro _ cur' p' n' hm'
        rw [collectProps] at hm'
        exact absurd hm' (List.not_mem_nil _)
      | cons kv rest ihp =>
        intro hsz cur' p' n' hm'
        obtain ⟨k, v⟩ := kv
        rw [collectProps] at hm'
        rcases List.mem_append.mp hm' with hm' | hm'
        · cases v with
          | scalar vo vl =>
            rw [isContainer, bool_ite_false] at hm'
            simp only [List.mem_singleton, Prod.mk.injEq] at hm'
            exact ⟨k, hm'.1⟩
          | obj vo vl vprops =>
            rw [isContainer, bool_ite_true] at hm'
            obtain ⟨s, hs⟩ :=
              IH _ (hsz (k, .obj vo vl vprops) (List.mem_cons_self _ _)) _ _ _ hm'
            exact ⟨k ++ '/' :: s, by rw [hs]; simp⟩
          | arr vo vl velems =>
            rw [isContainer, bool_ite_true] at hm'
            obtain ⟨s, hs⟩ :=
              IH _ (hsz (k, .arr vo vl velems) (List.mem_cons_self _ _)) _ _ _ hm'
            exact ⟨k ++ '/' :: s, by rw [hs]; simp⟩
        · exact ihp (fun kv hkv => hsz kv (List.mem_cons_of_mem _ hkv)) cur' p' n' hm'
    exact inner props hsz' cur p n hm
  | arr o l elems =>
    rw [collectLeafPaths] at hm
    have hsz' : ∀ e ∈ elems, sizeOf e < sizeOf (JNode.arr o l elems) := by
      intro e he
      exact sizeOf_elem_lt_arr he
    have inner : ∀ elems' : List JNode,
        (∀ e ∈ elems', sizeOf e < sizeOf (JNode.arr o l elems)) →
        ∀ cur' i₀ p' n', (p', n') ∈ collectElems elems' cur' i₀ →
          ∃ s, p' = cur' ++ '/' :: s := by
      intro elems'
      induction elems' with
      | nil =>
        intro _ cur' i₀ p' n' hm'
        rw [collectElems] at hm'
        exact absurd hm' (List.not_mem_nil _)
      | cons v rest ihe =>
        intro hsz cur' i₀ p' n' hm'
        rw [collectElems] at hm'
        rcases List.mem_append.mp hm' with hm' | hm'
        · cases v with
          | scalar vo vl =>
            rw [isContainer, bool_ite_false] at hm'
            simp only [List.mem_singleton, Prod.mk.injEq] at hm'
            exact ⟨natToStr i₀, hm'.1⟩
          | obj vo vl vprops =>
            rw [isContainer, bool_ite_true] at hm'
            obtain ⟨s, hs⟩ :=
              IH _ (hsz (.obj vo vl vprops) (List.mem_cons_self _ _)) _ _ _ hm'
            exact ⟨natToStr i₀ ++ '/' :: s, by rw [hs]; simp⟩
          | arr vo vl velems =>
            rw [isContainer, bool_ite_true] at hm'
            obtain ⟨s, hs⟩ :=
              IH _ (hsz (.arr vo vl velems) (List.mem_cons_self _ _)) _ _ _ hm'
            exact ⟨natToStr i₀ ++ '/' :: s, by rw [hs]; simp⟩
        · exact ihe (fun e he => hsz e (List.mem_cons_of_mem _ he)) cur' (i₀ + 1) p' n' hm'
    exact inner elems hsz' cur 0 p n hm

/-- On a tree with slash-free, sibling-unique keys, the collected leaf
paths are pairwise distinct: distinct leaves diverge at distinct sibling
labels, and the first segment of a rendered path is recoverable. -/
theorem collect_sep_nodup : ∀ t : JNode, sepTree t = true →
    ∀ cur, ((collectLeafPaths t cur).map Prod.fst).Nodup := by
  apply jnode_strong_ind (fun t => sepTree t = true →
    ∀ cur, ((collectLeafPaths t cur).map Prod.fst).Nodup)
  intro t IH hsep cur
  cases t with
  | scalar o l =>
    rw [collectLeafPaths]
    exact List.Pairwise.nil
  | obj o l props =>
    rw [sepTree] at hsep
    rw [collectLeafPaths]
    have hsz' : ∀ kv ∈ props, sizeOf kv.2 < sizeOf (JNode.obj o l props) := by
      intro kv hkv
      obtain ⟨k, v⟩ := kv
      exact sizeOf_val_lt_obj hkv
    have inner : ∀ props' : List (List Char × JNode),
        (∀ kv ∈ props', sizeOf kv.2 < sizeOf (JNode.obj o l props)) →
        sepProps props' = true → ∀ cur',
        ((collectProps props' cur').map Prod.fst).Nodup ∧
        ∀ p ∈ (collectProps props' cur').map Prod.fst, ∃ k v r, (k, v) ∈ props' ∧
          p = cur' ++ '/' :: (k ++ r) ∧ (r = [] ∨ ∃ s, r = '/' :: s) := by
      intro props'
      induction props' with
      | nil =>
        intro _ _ cur'
        rw [collectProps]
        refine ⟨List.Pairwise.nil, ?_⟩
        intro p hp
        exact absurd hp (List.not_mem_nil _)
      | cons kv rest ihp =>
        intro hsz hsp cur'
        obtain ⟨k, v⟩ := kv
        obtain ⟨hksf, hknot, hsv, hsrest⟩ := sepProps_cons hsp
        obtain ⟨ihN, ihS⟩ := ihp (fun kv hkv => hsz kv (List.mem_cons_of_mem _ hkv))
          hsrest cur'
        rw [collectProps]
        have hblock : ((if isContainer v then collectLeafPaths v (cur' ++ '/' :: k)
              else [(cur' ++ '/' :: k, v)]).map Prod.fst).Nodup ∧
            ∀ p ∈ ((if isContainer v then collectLeafPaths v (cur' ++ '/' :: k)
              else [(cur' ++ '/' :: k, v)]).map Prod.fst),
              ∃ r, p = cur' ++ '/' :: (k ++ r) ∧ (r = [] ∨ ∃ s, r = '/' :: s) := by
          cases v with
          | scalar vo vl =>
            rw [isContainer, bool_ite_false]
            refine ⟨by simp, ?_⟩
            intro p hp
            simp only [List.map_cons, List.map_nil, List.mem_singleton] at hp
            exact ⟨[], by rw [hp]; simp, Or.inl rfl⟩
          | obj vo vl vprops =>
            rw [isContainer, bool_ite_true]
            refine ⟨IH _ (hsz (k, .obj vo vl vprops) (List.mem_cons_self _ _)) hsv _, ?_⟩
            intro p hp
            obtain ⟨pl, hpl, hple⟩ := List.mem_map.mp hp
            obtain ⟨s, hs⟩ := collect_slash_prefix _ _ pl.1 pl.2 (by simpa using hpl)
            exact ⟨'/' :: s, by rw [← hple, hs]; simp, Or.inr ⟨s, rfl⟩⟩
          | arr vo vl velems =>
            rw [isContainer, bool_ite_true]
            refine ⟨IH _ (hsz (k, .arr vo vl velems) (List.mem_cons_self _ _)) hsv _, ?_⟩
            intro p hp
            obtain ⟨pl, hpl, hple⟩ := List.mem_map.mp hp
            obtain ⟨s, hs⟩ := collect_slash_prefix _ _ pl.1 pl.2 (by simpa using hpl)
            exact ⟨'/' :: s, by rw [← hple, hs]; simp, Or.inr ⟨s, rfl⟩⟩
        rw [List.map_append, List.nodup_append]
        refine ⟨⟨hblock.1, ihN, ?_⟩, ?_⟩
        · intro p hp1 hp2
          obtain ⟨r, hpr, hrs⟩ := hblock.2 p hp1
          obtain ⟨k', v', r', hmem', hpr', hrs'⟩ := ihS p hp2
          rw [hpr] at hpr'
          have hkr : k ++ r = k' ++ r' := by
            have h := List.append_cancel_left hpr'
            rw [List.cons.injEq] at h
            exact h.2
          have hk'sf : ∀ c ∈ k', c ≠ '/' := sepProps_key hsrest hmem'
          have hkk' : k = k' := seg_append_inj k k' r r' hksf hk'sf hrs hrs' hkr
          exact hknot (hkk' ▸ List.mem_map_of_mem Prod.fst hmem')
        · intro p hp
          rcases List.mem_append.mp hp with hp | hp
          · obtain ⟨r, hpr, hrs⟩ := hblock.2 p hp
            exact ⟨k, v, r, List.mem_cons_self _ _, hpr, hrs⟩
          · obtain ⟨k', v', r', hmem', hpr', hrs'⟩ := ihS p hp
            exact ⟨k', v', r', List.mem_cons_of_mem _ hmem', hpr', hrs'⟩
    exact (inner props hsz' hsep cur).1
  | arr o l elems =>
    rw [sepTree] at hsep
    rw [collectLeafPaths]
    have hsz' : ∀ e ∈ elems, sizeOf e < sizeOf (JNode.arr o l elems) := by
      intro e he
      exact sizeOf_elem_lt_arr he
    have hidx : ∀ m : Nat, ∀ c ∈ natToStr m, c ≠ '/' :=
      fun m c hc => isDigit_ne_slash (natToStr_digits m c hc)
    have inner : ∀ elems' : List JNode,
        (∀ e ∈ elems', sizeOf e < sizeOf (JNode.arr o l elems)) →
        sepElems elems' = true → ∀ cur' i₀,
        ((collectElems elems' cur' i₀).map Prod.fst).Nodup ∧
        ∀ p ∈ (collectElems elems' cur' i₀).map Prod.fst, ∃ j r, i₀ ≤ j ∧
          p = cur' ++ '/' :: (natToStr j ++ r) ∧ (r = [] ∨ ∃ s, r = '/' :: s) := by
      intro elems'
      induction elems' with
      | nil =>
        intro _ _ cur' i₀
        rw [collectElems]
        refine ⟨List.Pairwise.nil, ?_⟩
        intro p hp
        exact absurd hp (List.not_mem_nil _)
      | cons v rest ihe =>
        intro hsz hse cur' i₀
        obtain ⟨hsv, hsrest⟩ := sepElems_cons hse
        obtain ⟨ihN, ihS⟩ := ihe (fun e he => hsz e (List.mem_cons_of_mem _ he))
          hsrest cur' (i₀ + 1)
        rw [collectElems]
        have hblock : ((if isContainer v then collectLeafPaths v (cur' ++ '/' :: natToStr i₀)
              else [(cur' ++ '/' :: natToStr i₀, v)]).map Prod.fst).Nodup ∧
            ∀ p ∈ ((if isContainer v then collectLeafPaths v (cur' ++ '/' :: natToStr i₀)
              else [(cur' ++ '/' :: natToStr i₀, v)]).map Prod.fst),
              ∃ r, p = cur' ++ '/' :: (natToStr i₀ ++ r) ∧ (r = [] ∨ ∃ s, r = '/' :: s) := by
          cases v with
          | scalar vo vl =>
            rw [isContainer, bool_ite_false]
            refine ⟨by simp, ?_⟩
            intro p hp
            simp only [List.map_cons, List.map_nil, List.mem_singleton] at hp
            exact ⟨[], by rw [hp]; simp, Or.inl rfl⟩
          | obj vo vl vprops =>
            rw [isContainer, bool_ite_true]
            refine ⟨IH _ (hsz (.obj vo vl vprops) (List.mem_cons_self _ _)) hsv _, ?_⟩
            intro p hp
            obtain ⟨pl, hpl, hple⟩ := List.mem_map.mp hp
            obtain ⟨s, hs⟩ := collect_slash_prefix _ _ pl.1 pl.2 (by simpa using hpl)
            exact ⟨'/' :: s, by rw [← hple, hs]; simp, Or.inr ⟨s, rfl⟩⟩
          | arr vo vl velems =>
            rw [isContainer, bool_ite_true]
            refine ⟨IH _ (hsz (.arr vo vl velems) (List.mem_cons_self _ _)) hsv _, ?_⟩
            intro p hp
            obtain ⟨pl, hpl, hple⟩ := List.mem_map.mp hp
            obtain ⟨s, hs⟩ := collect_slash_prefix _ _ pl.1 pl.2 (by simpa using hpl)
            exact ⟨'/' :: s, by rw [← hple, hs]; simp, Or.inr ⟨s, rfl⟩⟩
        rw [List.map_append, List.nodup_append]
        refine ⟨⟨hblock.1, ihN, ?_⟩, ?_⟩
        · intro p hp1 hp2
          obtain ⟨r, hpr, hrs⟩ := hblock.2 p hp1
          obtain ⟨j, r', hj, hpr', hrs'⟩ := ihS p hp2
          rw [hpr] at hpr'
          have hkr : natToStr i₀ ++ r = natToStr j ++ r' := by
            have h := List.append_cancel_left hpr'
            rw [List.cons.injEq] at h
            exact h.2
          have hkk' : natToStr i₀ = natToStr j :=
            seg_append_inj _ _ r r' (hidx i₀) (hidx j) hrs hrs' hkr
          have hij : i₀ = j := by
            have h1 := digitsVal_natToStr i₀
            rw [hkk', digitsVal_natToStr] at h1
            exact h1.symm
          omega
        · intro p hp
          rcases List.mem_append.mp hp with hp | hp
          · obtain ⟨r, hpr, hrs⟩ := hblock.2 p hp
            exact ⟨i₀, r, Nat.le_refl _, hpr, hrs⟩
          · obtain ⟨j, r', hj, hpr', hrs'⟩ := ihS p hp
            exact ⟨j, r', by omega, hpr', hrs'⟩
    exact (inner elems hsz' hsep cur 0).1

/-- C8 (amended): whenever the target parses to a tree whose object keys
contain no `'/'` and are unique among their siblings, the extracted patch
list has pairwise-distinct path pointers — digit-string keys included;
with duplicate sibling keys in the target this fails (see the
counterexample). -/
theorem claim_C8_pointer_uniqueness (B T : String) (tt : JNode)
    (hT : parseDoc T.data = some tt) (hsep : sepTree tt = true) :
    ((extractPatches B T).map (fun p => p.path)).Nodup := by
  cases hB : parseDoc B.data with
  | none =>
    rw [extractPatches_none hB]
    exact List.Pairwise.nil
  | some tb =>
    rw [extractPatches_eq hB hT]
    have hsub : (((collectLeafPaths tt []).filterMap (fun pl =>
        match getRangeForPointer (some tb) ⟨pl.1⟩ with
        | none => some (⟨⟨pl.1⟩, ⟨getNodeText T.data pl.2⟩⟩ : PatchRecord)
        | some baseRange =>
          if jsSlice B.data baseRange.start baseRange.stop ≠ getNodeText T.data pl.2 then
            some ⟨⟨pl.1⟩, ⟨getNodeText T.data pl.2⟩⟩
          else none)).map (fun p => p.path)).Sublist
        ((collectLeafPaths tt []).map (fun pl => (⟨pl.1⟩ : String))) := by
      refine filterMap_path_sublist _ _ ?_
      intro pl r h
      split at h
      · simp only [Option.some.injEq] at h
        rw [← h]
      · split at h
        · simp only [Option.some.injEq] at h
          rw [← h]
        · exact absurd h (by simp)
    refine hsub.nodup ?_
    have hmm : (collectLeafPaths tt []).map (fun pl => (⟨pl.1⟩ : String))
        = ((collectLeafPaths tt []).map Prod.fst).map (fun l => (⟨l⟩ : String)) := by
      rw [List.map_map]
      rfl
    rw [hmm]
    refine List.Nodup.map ?_ (collect_sep_nodup tt hsep [])
    intro x y hxy
    injection hxy

/-- C8 counterexample: with duplicate sibling keys in the target — valid
JSON by the RFC 8259 grammar — both occurrences collect the same pointer,
so the extracted patch set repeats `/a`. -/
theorem claim_C8_counterexample :
    (parseDoc "\x7b\x7d".data).isSome = true ∧
    (parseDoc "\x7b\"a\":1,\"a\":2\x7d".data).isSome = true ∧
    extractPatches "\x7b\x7d" "\x7b\"a\":1,\"a\":2\x7d" = [⟨"/a", "1"⟩, ⟨"/a", "2"⟩] ∧
    ¬ ((extractPatches "\x7b\x7d" "\x7b\"a\":1,\"a\":2\x7d").map (fun p => p.path)).Nodup :=
  ⟨rfl, rfl, rfl, by decide⟩

theorem claim_C8_pointer_uniqueness_witness :
    parseDoc "\x7b\"8080\":\"x\",\"a\":1\x7d".data
      = some (.obj 0 18 [(['8', '0', '8', '0'], .scalar 8 3), (['a'], .scalar 16 1)]) ∧
    sepTree (JNode.obj 0 18
      [(['8', '0', '8', '0'], JNode.scalar 8 3), (['a'], JNode.scalar 16 1)]) = true ∧
    ((extractPatches "\x7b\x7d" "\x7b\"8080\":\"x\",\"a\":1\x7d").map
      (fun p => p.path)).Nodup :=
  ⟨rfl, by decide,
    claim_C8_pointer_uniqueness "\x7b\x7d" "\x7b\"8080\":\"x\",\"a\":1\x7d" _ rfl
      (by decide)⟩

/-- With equal leaf path lists, the extraction loop over the target leaves
is a filter over the zipped (baseline leaf, target leaf) pairs: exactly the
pairs whose baseline slice differs from the target leaf text produce a
patch, carrying the common path and the target text. -/
theorem extract_zip (B T : String) (tb : JNode) (hgood : goodTree tb = true) :
    ∀ lB lT : List (List Char × JNode),
    lB.map Prod.fst = lT.map Prod.fst →
    (∀ x ∈ lB, x ∈ collectLeafPaths tb []) →
    lT.filterMap (fun pl =>
      match getRangeForPointer (some tb) ⟨pl.1⟩ with
      | none => some ⟨⟨pl.1⟩, ⟨getNodeText T.data pl.2⟩⟩
      | some baseRange =>
        if jsSlice B.data baseRange.start baseRange.stop ≠ getNodeText T.data pl.2 then
          some ⟨⟨pl.1⟩, ⟨getNodeText T.data pl.2⟩⟩
        else none)
    = ((lB.zip lT).filter (fun x =>
        decide (¬ jsSlice B.data (offOf x.1.2) (offOf x.1.2 + lenOf x.1.2)
          = getNodeText T.data x.2.2))).map (fun x =>
        (⟨⟨x.2.1⟩, ⟨getNodeText T.data x.2.2⟩⟩ : PatchRecord)) := by
  intro lB
  induction lB with
  | nil =>
    intro lT h hmem
    cases lT with
    | nil => rfl
    | cons t rT => exact absurd h (by simp)
  | cons bn rB ih =>
    intro lT h hmem
    cases lT with
    | nil => exact absurd h (by simp)
    | cons t rT =>
      rw [List.map_cons, List.map_cons, List.cons.injEq] at h
      have hrng : getRangeForPointer (some tb) ⟨t.1⟩
          = some ⟨offOf bn.2, offOf bn.2 + lenOf bn.2⟩ := by
        rw [← h.1]
        exact getRange_of_collect hgood (p := bn.1) (n := bn.2)
          (by simpa using hmem bn (List.mem_cons_self _ _))
      rw [List.zip_cons_cons, List.filter_cons]
      simp only [List.filterMap_cons, hrng]
      have hih := ih rT h.2 (fun x hx => hmem x (List.mem_cons_of_mem _ hx))
      by_cases hne : jsSlice B.data (offOf bn.2) (offOf bn.2 + lenOf bn.2)
          = getNodeText T.data t.2
      · rw [if_neg (by simpa using hne), if_neg (by simpa using hne)]
        exact hih
      · rw [if_pos (by simpa using hne), if_pos (by simpa using hne), List.map_cons]
        rw [hih]

/-- Patches whose pointers all resolve partition into the full resolved
list (with the resolved ranges) and no invalid path. -/
theorem filterMap_map_resolved {α : Type} (root : JNode) :
    ∀ (zs : List α) (pat : α → PatchRecord) (rng : α → Range),
    (∀ z ∈ zs, getRangeForPointer (some root) (pat z).path = some (rng z)) →
    (zs.map pat).filterMap
        (fun p => (getRangeForPointer (some root) p.path).map (fun r => (p, r)))
      = zs.map (fun z => (pat z, rng z)) := by
  intro zs pat rng
  induction zs with
  | nil =>
    intro h
    rfl
  | cons z rest ih =>
    intro h
    simp only [List.map_cons, List.filterMap_cons, h z (List.mem_cons_self _ _),
      Option.map_some']
    rw [ih (fun w hw => h w (List.mem_cons_of_mem _ hw))]

/-- C1 (amended): the round-trip law holds for baseline/target pairs that
parse, have the same leaf pointers in the same document order, identical
inter-leaf text (gaps), and a pointer-safe baseline tree: then
`applyPatches(B, extractPatches(B, T)).content = T` exactly.  Without the
gap condition a whitespace-only edit refutes the law (see the
counterexample). -/
theorem claim_C1_round_trip (B T : String) (tb tt : JNode)
    (hB : parseDoc B.data = some tb) (hT : parseDoc T.data = some tt)
    (hgood : goodTree tb = true)
    (hpaths : (collectLeafPaths tb []).map Prod.fst = (collectLeafPaths tt []).map Prod.fst)
    (hgaps : docGaps B.data tb = docGaps T.data tt) :
    (applyPatches B (extractPatches B T)).content = T := by
  have hwfB := parseDoc_sound hB
  have hwfT := parseDoc_sound hT
  have hchainB : SpanChain 0 B.data.length (collectLeafPaths tb []) :=
    SpanChain_mono _ (Nat.zero_le _) hwfB.2.2 (collect_spans tb hwfB.1 [])
  have hchainT : SpanChain 0 T.data.length (collectLeafPaths tt []) :=
    SpanChain_mono _ (Nat.zero_le _) hwfT.2.2 (collect_spans tt hwfT.1 [])
  have hlen : (collectLeafPaths tb []).length = (collectLeafPaths tt []).length := by
    have h := congrArg List.length hpaths
    simpa using h
  have hzf := zip_fst_eq _ _ hpaths
  have hres : ∀ z ∈ ((collectLeafPaths tb []).zip (collectLeafPaths tt [])).filter
      (fun x => decide (¬ jsSlice B.data (offOf x.1.2) (offOf x.1.2 + lenOf x.1.2)
        = getNodeText T.data x.2.2)),
      getRangeForPointer (some tb)
          ((fun x => (⟨⟨x.2.1⟩, ⟨getNodeText T.data x.2.2⟩⟩ : PatchRecord)) z).path
        = some ((fun z => (⟨offOf z.1.2, offOf z.1.2 + lenOf z.1.2⟩ : Range)) z) := by
    intro z hz
    have hz2 := List.mem_of_mem_filter hz
    have hmemB : z.1 ∈ collectLeafPaths tb [] :=
      (List.of_mem_zip (by simpa using hz2)).1
    show getRangeForPointer (some tb) ⟨z.2.1⟩
      = some ⟨offOf z.1.2, offOf z.1.2 + lenOf z.1.2⟩
    rw [← hzf z hz2]
    exact getRange_of_collect hgood (p := z.1.1) (n := z.1.2) (by simpa using hmemB)
  rw [applyPatches_content B (extractPatches B T) tb hB, extractPatches_eq hB hT,
    extract_zip B T tb hgood _ _ hpaths (fun x hx => hx),
    filterMap_map_resolved tb _ _
      (fun z => (⟨offOf z.1.2, offOf z.1.2 + lenOf z.1.2⟩ : Range)) hres]
  beta_reduce
  set K := ((collectLeafPaths tb []).zip (collectLeafPaths tt [])).filter
      (fun x => decide (¬ jsSlice B.data (offOf x.1.2) (offOf x.1.2 + lenOf x.1.2)
        = getNodeText T.data x.2.2)) with hK
  have hksub : (K.map Prod.fst).Sublist (collectLeafPaths tb []) := by
    have h1 : K.Sublist ((collectLeafPaths tb []).zip (collectLeafPaths tt [])) := by
      rw [hK]
      exact List.filter_sublist _
    have h2 := h1.map Prod.fst
    rwa [List.map_fst_zip _ _ (Nat.le_of_eq hlen)] at h2
  have hchKB : SpanChain 0 B.data.length (K.map Prod.fst) := SpanChain_sublist hksub hchainB
  have hlt : (K.map (fun z => ((⟨⟨z.2.1⟩, ⟨getNodeText T.data z.2.2⟩⟩ : PatchRecord),
      (⟨offOf z.1.2, offOf z.1.2 + lenOf z.1.2⟩ : Range)))).Pairwise
      (fun a b => a.2.start < b.2.start) := by
    rw [List.pairwise_map]
    have hpw := SpanChain_pairwise _ hchKB
    rw [List.pairwise_map] at hpw
    have hlen1 := SpanChain_mem_len _ hchKB
    refine hpw.imp_of_mem ?_
    intro a b ha hb hle
    have h1 := hlen1 a.1 (List.mem_map_of_mem Prod.fst ha)
    show offOf a.1.2 < offOf b.1.2
    omega
  have hspans : (K.map (fun z => ((⟨⟨z.2.1⟩, ⟨getNodeText T.data z.2.2⟩⟩ : PatchRecord),
      (⟨offOf z.1.2, offOf z.1.2 + lenOf z.1.2⟩ : Range)))).map
        (fun pr => (pr.2.start, pr.2.stop))
      = K.map (fun z => (offOf z.1.2, offOf z.1.2 + lenOf z.1.2)) := by
    rw [List.map_map]
    exact List.map_congr_left (fun a _ => rfl)
  have hvals : (K.map (fun z => ((⟨⟨z.2.1⟩, ⟨getNodeText T.data z.2.2⟩⟩ : PatchRecord),
      (⟨offOf z.1.2, offOf z.1.2 + lenOf z.1.2⟩ : Range)))).map
        (fun pr => pr.1.value.data)
      = K.map (fun z => getNodeText T.data z.2.2) := by
    rw [List.map_map]
    exact List.map_congr_left (fun a _ => rfl)
  have hchK : SpChain 0 B.data.length
      ((K.map (fun z => ((⟨⟨z.2.1⟩, ⟨getNodeText T.data z.2.2⟩⟩ : PatchRecord),
        (⟨offOf z.1.2, offOf z.1.2 + lenOf z.1.2⟩ : Range)))).map
          (fun pr => (pr.2.start, pr.2.stop))) := by
    rw [hspans]
    have h1 : K.map (fun z => (offOf z.1.2, offOf z.1.2 + lenOf z.1.2))
        = (K.map Prod.fst).map (fun x => (offOf x.2, offOf x.2 + lenOf x.2)) := by
      rw [List.map_map]
      exact List.map_congr_left (fun a _ => rfl)
    rw [h1]
    exact spanChain_spChain _ hchKB
  rw [sortDesc_eq_reverse _ hlt, List.foldl_reverse, foldr_splice B.data _ 0 hchK,
    hspans, hvals, List.take_zero, List.nil_append]
  have hfilter : K.map (fun z => ((offOf z.1.2, offOf z.1.2 + lenOf z.1.2),
      getNodeText T.data z.2.2))
      = (((collectLeafPaths tb []).zip (collectLeafPaths tt [])).map (fun z =>
          ((offOf z.1.2, offOf z.1.2 + lenOf z.1.2), getNodeText T.data z.2.2))).filter
        (fun w => decide (¬ jsSlice B.data w.1.1 w.1.2 = w.2)) := by
    rw [List.filter_map, hK]
    exact congrArg (List.map _) (List.filter_congr (fun a _ => rfl))
  have hKs : ((((collectLeafPaths tb []).zip (collectLeafPaths tt [])).map (fun z =>
        ((offOf z.1.2, offOf z.1.2 + lenOf z.1.2), getNodeText T.data z.2.2))).filter
          (fun w => decide (¬ jsSlice B.data w.1.1 w.1.2 = w.2))).map Prod.fst
      = K.map (fun z => (offOf z.1.2, offOf z.1.2 + lenOf z.1.2)) := by
    rw [← hfilter, List.map_map]
    exact List.map_congr_left (fun a _ => rfl)
  have hKv : ((((collectLeafPaths tb []).zip (collectLeafPaths tt [])).map (fun z =>
        ((offOf z.1.2, offOf z.1.2 + lenOf z.1.2), getNodeText T.data z.2.2))).filter
          (fun w => decide (¬ jsSlice B.data w.1.1 w.1.2 = w.2))).map Prod.snd
      = K.map (fun z => getNodeText T.data z.2.2) := by
    rw [← hfilter, List.map_map]
    exact List.map_congr_left (fun a _ => rfl)
  rw [← hKs, ← hKv]
  have hLf : (((collectLeafPaths tb []).zip (collectLeafPaths tt [])).map (fun z =>
      ((offOf z.1.2, offOf z.1.2 + lenOf z.1.2), getNodeText T.data z.2.2))).map Prod.fst
      = (collectLeafPaths tb []).map (fun x => (offOf x.2, offOf x.2 + lenOf x.2)) := by
    rw [List.map_map]
    have h1 : ((collectLeafPaths tb []).zip (collectLeafPaths tt [])).map
        (Prod.fst ∘ (fun z => ((offOf z.1.2, offOf z.1.2 + lenOf z.1.2),
          getNodeText T.data z.2.2)))
        = (((collectLeafPaths tb []).zip (collectLeafPaths tt [])).map Prod.fst).map
          (fun x => (offOf x.2, offOf x.2 + lenOf x.2)) := by
      rw [List.map_map]
      exact List.map_congr_left (fun a _ => rfl)
    rw [h1, List.map_fst_zip _ _ (Nat.le_of_eq hlen)]
  have hchainL : SpChain 0 B.data.length
      ((((collectLeafPaths tb []).zip (collectLeafPaths tt [])).map (fun z =>
        ((offOf z.1.2, offOf z.1.2 + lenOf z.1.2), getNodeText T.data z.2.2))).map
          Prod.fst) := by
    rw [hLf]
    exact spanChain_spChain _ hchainB
  have hdrop : ∀ x ∈ ((collectLeafPaths tb []).zip (collectLeafPaths tt [])).map (fun z =>
      ((offOf z.1.2, offOf z.1.2 + lenOf z.1.2), getNodeText T.data z.2.2)),
      (fun w => decide (¬ jsSlice B.data w.1.1 w.1.2 = w.2)) x = false →
      x.2 = jsSlice B.data x.1.1 x.1.2 := by
    intro x hx hf
    simp only [decide_eq_false_iff_not, not_not] at hf
    exact hf.symm
  rw [interleave_filter B.data _ _ 0 hchainL hdrop, hLf]
  have hLs : (((collectLeafPaths tb []).zip (collectLeafPaths tt [])).map (fun z =>
      ((offOf z.1.2, offOf z.1.2 + lenOf z.1.2), getNodeText T.data z.2.2))).map Prod.snd
      = ((collectLeafPaths tt []).map (fun x => (offOf x.2, offOf x.2 + lenOf x.2))).map
        (fun s => jsSlice T.data s.1 s.2) := by
    rw [List.map_map, List.map_map]
    have h1 : ((collectLeafPaths tb []).zip (collectLeafPaths tt [])).map
        (Prod.snd ∘ (fun z => ((offOf z.1.2, offOf z.1.2 + lenOf z.1.2),
          getNodeText T.data z.2.2)))
        = (((collectLeafPaths tb []).zip (collectLeafPaths tt [])).map Prod.snd).map
          (fun x => getNodeText T.data x.2) := by
      rw [List.map_map]
      exact List.map_congr_left (fun a _ => rfl)
    rw [h1, List.map_snd_zip _ _ (Nat.le_of_eq hlen.symm)]
    exact List.map_congr_left (fun a _ => rfl)
  rw [hLs]
  have hgaps' : gapsAux B.data 0
        ((collectLeafPaths tb []).map (fun x => (offOf x.2, offOf x.2 + lenOf x.2)))
      = gapsAux T.data 0
        ((collectLeafPaths tt []).map (fun x => (offOf x.2, offOf x.2 + lenOf x.2))) :=
    hgaps
  rw [hgaps',
    interleave_reconstruct T.data _ 0 (spanChain_spChain _ hchainT), List.drop_zero]

/-- C1 counterexample: a whitespace-only edit keeps every leaf (the leaf
pointer lists agree) and both texts are valid JSON, yet the extraction sees
no differing leaf, so applying the (empty) patch list returns the baseline,
not the edited text. -/
theorem claim_C1_counterexample :
    (parseDoc "\x7b\"a\":1\x7d".data).isSome = true ∧
    (parseDoc "\x7b\"a\":1 \x7d".data).isSome = true ∧
    (parseDoc "\x7b\"a\":1\x7d".data).map (fun t => (collectLeafPaths t []).map Prod.fst)
      = some ["/a".data] ∧
    (parseDoc "\x7b\"a\":1 \x7d".data).map (fun t => (collectLeafPaths t []).map Prod.fst)
      = some ["/a".data] ∧
    (applyPatches "\x7b\"a\":1\x7d" (extractPatches "\x7b\"a\":1\x7d" "\x7b\"a\":1 \x7d")).content
      ≠ "\x7b\"a\":1 \x7d" :=
  ⟨rfl, rfl, rfl, rfl, by decide⟩

theorem claim_C1_round_trip_witness :
    parseDoc "\x7b\"a\":1,\"b\":2\x7d".data
        = some (.obj 0 13 [(['a'], .scalar 5 1), (['b'], .scalar 11 1)]) ∧
    parseDoc "\x7b\"a\":10,\"b\":2\x7d".data
        = some (.obj 0 14 [(['a'], .scalar 5 2), (['b'], .scalar 12 1)]) ∧
    goodTree (JNode.obj 0 13 [(['a'], JNode.scalar 5 1), (['b'], JNode.scalar 11 1)])
      = true ∧
    (collectLeafPaths
        (JNode.obj 0 13 [(['a'], JNode.scalar 5 1), (['b'], JNode.scalar 11 1)]) []).map
        Prod.fst
      = (collectLeafPaths
        (JNode.obj 0 14 [(['a'], JNode.scalar 5 2), (['b'], JNode.scalar 12 1)]) []).map
        Prod.fst ∧
    docGaps "\x7b\"a\":1,\"b\":2\x7d".data
        (JNode.obj 0 13 [(['a'], JNode.scalar 5 1), (['b'], JNode.scalar 11 1)])
      = docGaps "\x7b\"a\":10,\"b\":2\x7d".data
        (JNode.obj 0 14 [(['a'], JNode.scalar 5 2), (['b'], JNode.scalar 12 1)]) ∧
    (applyPatches "\x7b\"a\":1,\"b\":2\x7d"
        (extractPatches "\x7b\"a\":1,\"b\":2\x7d" "\x7b\"a\":10,\"b\":2\x7d")).content
      = "\x7b\"a\":10,\"b\":2\x7d" :=
  ⟨rfl, rfl, by decide, rfl, rfl,
    claim_C1_round_trip "\x7b\"a\":1,\"b\":2\x7d" "\x7b\"a\":10,\"b\":2\x7d" _ _ rfl rfl
      (by decide) rfl rfl⟩

end PatchUtils

